import Mathlib

/-!
Shallow embedding of the `shapecompletion` crate (files `matcher_helper.rs`
and `filler.rs`) and proofs about the claims of its specification.

Modelling conventions:
* Rust `usize` values are `Nat`; where wrap-around of `usize` arithmetic or
  of an `as usize` cast matters, the reduction `% 2^64` is written explicitly.
* Rust `i32` values are `Int`.
* Rust `f64` values are modelled as exact real numbers `ℝ`; the narrowing
  casts `as i32` / `as u64` / `as usize` are modelled as the exact floor
  (saturating at `0` for negative values), which agrees with the IEEE-754
  behaviour for the magnitudes appearing in the concrete inputs used here.
* Panics (`expect`, out-of-bounds slice indexing, `unwrap`) are modelled by
  `Except String`, carrying the panic diagnostic.
-/

namespace ShapeSense

/-! ### matcher_helper.rs : data model -/

/-- Embeds `struct MatchItem` (an id, a location point and a direction
vector, both `PointF64`, modelled as pairs of reals). -/
structure MatchItem where
  id : Nat
  point : ℝ × ℝ
  direction : ℝ × ℝ

/-- Embeds `struct MatchItemSet` (a vector of match items). -/
structure MatchItemSet where
  items : List MatchItem

/-- Embeds `struct Matching` (a vector of index pairs). -/
structure Matching where
  index_pairs : List (Nat × Nat)

/-- Modelled from the spec: the external `visioniechor::PointF64::distance_to`
("Euclidean distance" between 2D points, §6). -/
noncomputable def pointDistanceTo (p q : ℝ × ℝ) : ℝ :=
  Real.sqrt ((p.1 - q.1) ^ 2 + (p.2 - q.2) ^ 2)

/-- Embeds `impl Distanced for MatchItem`: distance uses the location only. -/
noncomputable def MatchItem.distance_to (a b : MatchItem) : ℝ :=
  pointDistanceTo a.point b.point

/-! ### matcher_helper.rs : Matching equality and hash -/

/-- Embeds `fn sort_index_pair`. -/
def sort_index_pair (p : Nat × Nat) : Nat × Nat :=
  if p.1 ≤ p.2 then p else (p.2, p.1)

/-- Embeds `fn get_sorted_index_pairs` (each pair is sorted; the vector
order is kept). -/
def get_sorted_index_pairs (l : List (Nat × Nat)) : List (Nat × Nat) :=
  l.map sort_index_pair

/-- Models `HashMap<usize, usize>` built by `collect` from a pair iterator:
insertion proceeds left to right and a later pair with the same key
overwrites an earlier one.  Lookup is modelled on the reversed list, whose
first hit is the last inserted binding. -/
def hashMapGet (entries : List (Nat × Nat)) (k : Nat) : Option Nat :=
  (entries.reverse.find? (fun e => e.1 == k)).map (fun e => e.2)

/-- Embeds `impl PartialEq for Matching` (`fn eq`): compare lengths, sort
each pair on both sides, collect the left side into a hash map and require
every pair of the right side to match the mapping. -/
def matchingEq (a b : Matching) : Bool :=
  if a.index_pairs.length ≠ b.index_pairs.length then false
  else
    let self_sorted := get_sorted_index_pairs a.index_pairs
    let other_sorted := get_sorted_index_pairs b.index_pairs
    other_sorted.all (fun p =>
      match hashMapGet self_sorted p.1 with
      | some v => v == p.2
      | none => false)

/-- Embeds `impl Hash for Matching`: the data written into the hasher is the
pair of component sums of the sorted index pairs (sums are order-invariant),
so two matchings hash equal iff these two sums agree. -/
def matchingHashData (a : Matching) : Nat × Nat :=
  (get_sorted_index_pairs a.index_pairs).foldl
    (fun s p => (s.1 + p.1, s.2 + p.2)) (0, 0)

/-! ### matcher_helper.rs : distance matrix and optimal assignment -/

/-- Embeds `struct SquareDistanceMatrix` (`n` and a row-major vector of
`f64` distances, modelled as reals). -/
structure SquareDistanceMatrix where
  n : Nat
  distances : List ℝ

/-- Embeds `SquareDistanceMatrix::from_two_sets`: asserts equal sizes
(`assert_eq!`, a panic on violation) and fills the row-major matrix with
`distances[i*n+j] = set1[i].distance_to(&set2[j])`.  The nested assignment
loop is written as a map over the row-major index range. -/
noncomputable def from_two_sets (set1 set2 : MatchItemSet) :
    Except String SquareDistanceMatrix :=
  if set1.items.length = set2.items.length then
    let n := set1.items.length
    Except.ok
      { n := n
        distances := (List.range (n * n)).map (fun k =>
          MatchItem.distance_to (set1.items.getD (k / n) ⟨0, (0, 0), (0, 0)⟩)
            (set2.items.getD (k % n) ⟨0, (0, 0), (0, 0)⟩)) }
  else Except.error "assertion failed: set1.len() == set2.len()"

/-- Total cost of the assignment `sigma` (as the list of matched column
indices for rows `0..n`) over the row-major integer cost matrix. -/
def assignCost (costs : List Nat) (n : Nat) (sigma : List Nat) : Nat :=
  (((List.range n).zip sigma).map (fun ij => costs.getD (ij.1 * n + ij.2) 0)).sum

/-- First element with the minimal key, mirroring Rust `Iterator::min_by_key`
("if several elements are equally minimum, the first element is
returned"). -/
def minByKeyFirst (key : α → Nat) : List α → Option α
  | [] => none
  | x :: xs => some (xs.foldl (fun best c => if key c < key best then c else best) x)

/-- Modelled from the spec: the external `hungarian::minimize` ("solves a
minimum-cost perfect bipartite matching ... to produce a bijection between
the two index spaces", §4.6), modelled as the first cost-minimal
permutation of `0..n`, returned as `Vec<Option<usize>>`. -/
def hungarianMinimize (costs : List Nat) (n : Nat) : List (Option Nat) :=
  match minByKeyFirst (assignCost costs n) (List.range n).permutations with
  | none => []
  | some sigma => sigma.map some

/-- Embeds `Matching::from_hungarian_result`: enumerate the result vector
and unwrap every entry (`unwrap` panics on `None`). -/
def from_hungarian_result (res : List (Option Nat)) : Except String Matching :=
  if res.all (fun o => o.isSome) then
    Except.ok ⟨res.enum.map (fun p => (p.1, p.2.getD 0))⟩
  else Except.error "called Option unwrap on a None value"

/-- Embeds `SquareDistanceMatrix::into_matching`: truncate every distance
downward to an integer (`dist as u64`, modelled as the exact nonnegative
floor) and solve the assignment problem. -/
noncomputable def into_matching (m : SquareDistanceMatrix) : Except String Matching :=
  from_hungarian_result
    (hungarianMinimize (m.distances.map (fun d => ⌊d⌋₊)) m.n)

/-! ### filler.rs : data model -/

/-- Embeds `enum FilledHoleElement`. -/
inductive FilledHoleElement
  | Blank
  | Structure
  | Texture
deriving DecidableEq, Repr

/-- Embeds `struct FilledHoleMatrix`.  The length invariant
`elems.len() == width * height` is established by `FilledHoleMatrix::new`
and preserved by every operation of the crate, so it is carried as a
structure invariant. -/
structure FilledHoleMatrix where
  width : Nat
  height : Nat
  elems : List FilledHoleElement
  hlen : elems.length = width * height

/-- Embeds `FilledHoleMatrix::new` (an all-`Blank` grid). -/
def FilledHoleMatrix.new (width height : Nat) : FilledHoleMatrix :=
  ⟨width, height, List.replicate (width * height) FilledHoleElement.Blank,
    List.length_replicate _ _⟩

/-- Embeds `impl Index<PointUsize> for FilledHoleMatrix` at an index known
to be in range: `elems[y * width + x]` (reads of out-of-range positions are
never meaningful; this total model returns `Blank` there). -/
def FilledHoleMatrix.get (m : FilledHoleMatrix) (p : Nat × Nat) : FilledHoleElement :=
  m.elems.getD (p.2 * m.width + p.1) FilledHoleElement.Blank

/-- Embeds `impl IndexMut<PointUsize> for FilledHoleMatrix` at an index
known to be in range: `elems[y * width + x] = v`. -/
def FilledHoleMatrix.set (m : FilledHoleMatrix) (p : Nat × Nat)
    (v : FilledHoleElement) : FilledHoleMatrix :=
  ⟨m.width, m.height, m.elems.set (p.2 * m.width + p.1) v,
    by rw [List.length_set]; exact m.hlen⟩

/-- Embeds the panicking `impl IndexMut<PointUsize>` write used by the
rasterizer, where the computed index may be out of range: the `usize`
index arithmetic wraps modulo `2^64` and an out-of-range index panics
("index out of bounds"). -/
def FilledHoleMatrix.setChecked (m : FilledHoleMatrix) (p : Nat × Nat)
    (v : FilledHoleElement) : Except String FilledHoleMatrix :=
  let idx := (p.2 * m.width + p.1) % 2 ^ 64
  if h : idx < m.elems.length then
    Except.ok ⟨m.width, m.height, m.elems.set idx v,
      by rw [List.length_set]; exact m.hlen⟩
  else Except.error "index out of bounds"

/-! ### filler.rs : curve rasterization -/

/-- Models the Rust cast `i32 as usize` (sign-extension and two's-complement
reinterpretation on a 64-bit target). -/
def usizeOfI32 (x : Int) : Nat :=
  (x % 2 ^ 64).toNat

/-- Models the Rust cast `f64 as usize` (saturating: negative values become
`0`, the fractional part is dropped). -/
noncomputable def usizeOfF64 (x : ℝ) : Nat :=
  min (⌊x⌋.toNat) (2 ^ 64 - 1)

/-- Embeds `visioniechor::CompoundPathElement`: an integer polyline, a float
polyline, or a spline given by the control-point lists of its cubic Bezier
segments. -/
inductive CompoundPathElement
  | pathI32 (points : List (Int × Int))
  | pathF64 (points : List (ℝ × ℝ))
  | spline (controlPoints : List (List (ℝ × ℝ)))

/-- Embeds `HoleFiller::rasterize_bezier_curve` applied to one
4-control-point segment.  The flo_curves evaluation (`estimate_length`,
`point_at_pos`) is external, so the list of evaluated curve points is
supplied by the parameter `sampler`; each sample is clamped into the grid
(`min (p.x as usize) (width-1)`, `min (p.y as usize) (height-1)`) and
marked `Structure` — a total operation, no index can panic here. -/
noncomputable def rasterize_bezier_curve (sampler : List (ℝ × ℝ) → List (ℝ × ℝ))
    (m : FilledHoleMatrix) (control_points : List (ℝ × ℝ)) : FilledHoleMatrix :=
  (sampler control_points).foldl
    (fun acc p =>
      acc.set (min (usizeOfF64 p.1) (acc.width - 1),
               min (usizeOfF64 p.2) (acc.height - 1)) FilledHoleElement.Structure)
    m

/-- Embeds the body of the `for_each` over one path element inside
`HoleFiller::rasterize_intrapolated_curves`: polyline vertices are offset
by `-origin` and written unclamped through the panicking index; a spline
first checks `try_into` on every control-point list (`expect` panics unless
its length is exactly 4) and then rasterizes the segment clamped. -/
noncomputable def rasterizePathElement (sampler : List (ℝ × ℝ) → List (ℝ × ℝ))
    (origin : Int × Int) (m : FilledHoleMatrix) :
    CompoundPathElement → Except String FilledHoleMatrix
  | CompoundPathElement.pathI32 points =>
      points.foldlM
        (fun acc (p : Int × Int) =>
          acc.setChecked (usizeOfI32 (p.1 - origin.1), usizeOfI32 (p.2 - origin.2))
            FilledHoleElement.Structure)
        m
  | CompoundPathElement.pathF64 points =>
      points.foldlM
        (fun acc (p : ℝ × ℝ) =>
          acc.setChecked (usizeOfF64 (p.1 - (origin.1 : ℝ)), usizeOfF64 (p.2 - (origin.2 : ℝ)))
            FilledHoleElement.Structure)
        m
  | CompoundPathElement.spline cps =>
      cps.foldlM
        (fun acc points =>
          if points.length = 4 then
            Except.ok (rasterize_bezier_curve sampler acc
              (points.map (fun p => (p.1 - (origin.1 : ℝ), p.2 - (origin.2 : ℝ)))))
          else Except.error "Control points must have 4 elements")
        m

/-- Embeds `HoleFiller::rasterize_intrapolated_curves` over the flattened
list of path elements of all compound paths (the curves are consumed in
order; the first panic aborts). -/
noncomputable def rasterize_intrapolated_curves
    (sampler : List (ℝ × ℝ) → List (ℝ × ℝ)) (m : FilledHoleMatrix)
    (curves : List CompoundPathElement) (origin : Int × Int) :
    Except String FilledHoleMatrix :=
  curves.foldlM (fun acc el => rasterizePathElement sampler origin acc el) m

/-! ### filler.rs : flood fill -/

/-- The four axis-aligned neighbours, in the push order of
`fill_hole_iterative`. -/
def neighborsOf (p : Int × Int) : List (Int × Int) :=
  [(p.1 + 1, p.2), (p.1, p.2 + 1), (p.1 - 1, p.2), (p.1, p.2 - 1)]

/-- The out-of-range test of `fill_hole_iterative`
(`x < 0 || x >= width || y < 0 || y >= height`, negated). -/
def inBoundsOf (m : FilledHoleMatrix) (p : Int × Int) : Bool :=
  decide (0 ≤ p.1) && decide (p.1 < (m.width : Int)) &&
  decide (0 ≤ p.2) && decide (p.2 < (m.height : Int))

/-- Embeds `PointI32::to_point_usize` for a point already checked to be
nonnegative. -/
def toUsizePoint (p : Int × Int) : Nat × Nat :=
  (p.1.toNat, p.2.toNat)

/-- Number of `Blank` cells, the termination measure of the flood fill. -/
def countBlank (m : FilledHoleMatrix) : Nat :=
  m.elems.countP (fun e => e == FilledHoleElement.Blank)

theorem countBlank_set_lt (l : List FilledHoleElement) (i : Nat)
    (hi : i < l.length) (hB : l.getD i FilledHoleElement.Blank = FilledHoleElement.Blank) :
    (l.set i FilledHoleElement.Texture).countP (fun e => e == FilledHoleElement.Blank) <
      l.countP (fun e => e == FilledHoleElement.Blank) := by
  induction l generalizing i with
  | nil => simp at hi
  | cons hd tl ih =>
    cases i with
    | zero =>
      simp only [List.getD_cons_zero] at hB
      subst hB
      simp [List.countP_cons]
    | succ j =>
      simp only [List.length_cons, Nat.succ_lt_succ_iff] at hi
      simp only [List.getD_cons_succ] at hB
      have := ih j hi hB
      simp only [List.set_cons_succ, List.countP_cons]
      omega

/-- Embeds the `while !stack.is_empty()` loop of
`HoleFiller::fill_hole_iterative`; the list head is the stack top, so the
four pushed neighbours are popped in reverse push order. -/
def floodLoop (m : FilledHoleMatrix) (stack : List (Int × Int)) : FilledHoleMatrix :=
  match stack with
  | [] => m
  | p :: rest =>
    if inBoundsOf m p = false then floodLoop m rest
    else if m.get (toUsizePoint p) ≠ FilledHoleElement.Blank then floodLoop m rest
    else floodLoop (m.set (toUsizePoint p) FilledHoleElement.Texture)
      ((neighborsOf p).reverse ++ rest)
termination_by 4 * countBlank m + stack.length
decreasing_by
  · simp only [List.length_cons]; omega
  · simp only [List.length_cons]; omega
  · simp only [List.length_cons, List.length_append, List.length_reverse, neighborsOf,
      List.length_cons, List.length_nil]
    have hx : 0 ≤ p.1 ∧ p.1 < (m.width : Int) ∧ 0 ≤ p.2 ∧ p.2 < (m.height : Int) := by
      rename_i h _; simp [inBoundsOf, Bool.not_eq_false] at h; tauto
    have hidx : p.2.toNat * m.width + p.1.toNat < m.elems.length := by
      rw [m.hlen]
      have h1 : p.1.toNat < m.width := by omega
      have h2 : p.2.toNat < m.height := by omega
      calc p.2.toNat * m.width + p.1.toNat < p.2.toNat * m.width + m.width := by omega
        _ = (p.2.toNat + 1) * m.width := by ring
        _ ≤ m.height * m.width := Nat.mul_le_mul_right _ (by omega)
        _ = m.width * m.height := Nat.mul_comm _ _
    have hblank : m.elems.getD (p.2.toNat * m.width + p.1.toNat) FilledHoleElement.Blank
        = FilledHoleElement.Blank := by
      rename_i hne; simp only [FilledHoleMatrix.get, toUsizePoint, ne_eq, not_not] at hne
      exact hne
    have := countBlank_set_lt m.elems _ hidx hblank
    simp only [countBlank, FilledHoleMatrix.set, toUsizePoint]
    omega

/-- Embeds `HoleFiller::fill_hole_iterative` (the stack starts as
`vec![seed]`). -/
def fill_hole_iterative (m : FilledHoleMatrix) (seed : Int × Int) : FilledHoleMatrix :=
  floodLoop m [seed]

/-! ### filler.rs : bounding rectangle (external interface of visioniechor) -/

/-- Embeds `visioniechor::BoundingRect` (integer-coordinate rectangle). -/
structure BoundingRect where
  left : Int
  top : Int
  right : Int
  bottom : Int

/-- Embeds `BoundingRect::width` (`right - left`). -/
def BoundingRect.width (r : BoundingRect) : Int := r.right - r.left

/-- Embeds `BoundingRect::height` (`bottom - top`). -/
def BoundingRect.height (r : BoundingRect) : Int := r.bottom - r.top

/-- Embeds `BoundingRect::top_left`. -/
def BoundingRect.top_left (r : BoundingRect) : Int × Int := (r.left, r.top)

/-- Embeds `BoundingRect::top_right`. -/
def BoundingRect.top_right (r : BoundingRect) : Int × Int := (r.right, r.top)

/-- Embeds `BoundingRect::bottom_left`. -/
def BoundingRect.bottom_left (r : BoundingRect) : Int × Int := (r.left, r.bottom)

/-- Embeds `BoundingRect::bottom_right`. -/
def BoundingRect.bottom_right (r : BoundingRect) : Int × Int := (r.right, r.bottom)

/-- Modelled from the spec: the external
`BoundingRect::have_point_on_boundary` with zero tolerance
("boundary-membership test", §6): membership in the perimeter of
`[left,right] × [top,bottom]`. -/
def BoundingRect.have_point_on_boundary (r : BoundingRect) (p : Int × Int) : Bool :=
  ((p.1 == r.left || p.1 == r.right) && decide (r.top ≤ p.2) && decide (p.2 ≤ r.bottom)) ||
  ((p.2 == r.top || p.2 == r.bottom) && decide (r.left ≤ p.1) && decide (p.1 ≤ r.right))

/-- Modelled from the spec: the external
`BoundingRect::get_boundary_points_from(point, clockwise=true)`
("enumeration of its boundary points as a cyclic ordered sequence starting
from a given point, in a fixed direction", §6).  The perimeter of
`[left,right] × [top,bottom]` is enumerated clockwise, each corner once,
and rotated so that the sequence starts at `start`. -/
def BoundingRect.get_boundary_points_from (r : BoundingRect) (start : Int × Int) :
    List (Int × Int) :=
  let w := r.width.toNat
  let h := r.height.toNat
  let ps :=
    ((List.range w).map (fun i => (r.left + i, r.top))) ++
    ((List.range h).map (fun j => (r.right, r.top + j))) ++
    ((List.range w).map (fun i => (r.right - i, r.bottom))) ++
    ((List.range h).map (fun j => (r.left, r.bottom - j)))
  let i := ps.indexOf start
  ps.drop i ++ ps.take i

/-- Modelled from the spec: the external
`BoundingRect::get_closest_point_outside` ("the nearest point strictly
exterior to the hole", §4.4), for the points on the top/left part of the
boundary on which `fill_holes` calls it: one step outward. -/
def BoundingRect.get_closest_point_outside (r : BoundingRect) (p : Int × Int) : Int × Int :=
  if p.2 = r.top then (p.1, p.2 - 1)
  else if p.1 = r.left then (p.1 - 1, p.2)
  else p

/-- Modelled from the spec: the external
`BoundingRect::get_closest_point_inside` ("the nearest point inside the
rectangle", §4.4): clamping into the hole pixels
`[left,right) × [top,bottom)`. -/
def BoundingRect.get_closest_point_inside (r : BoundingRect) (p : Int × Int) : Int × Int :=
  (max r.left (min p.1 (r.right - 1)), max r.top (min p.2 (r.bottom - 1)))

/-! ### filler.rs : endpoint adjustment -/

/-- Floor of the square root of a natural number, written so that it
evaluates by kernel reduction (`Nat.sqrt` is proved equal to it in
`floorSqrt_eq_sqrt`). -/
def floorSqrt (n : Nat) : Nat :=
  ((List.range (n + 1)).filter (fun k => k * k ≤ n)).length - 1

theorem length_filter_range_lt (m c : Nat) :
    ((List.range m).filter (fun k => k < c)).length = min c m := by
  induction m with
  | zero => simp
  | succ m ih =>
    rw [List.range_succ, List.filter_append]
    by_cases h : m < c
    · simp [h, ih]; omega
    · simp [h, ih]; omega

theorem floorSqrt_eq_sqrt (n : Nat) : floorSqrt n = Nat.sqrt n := by
  unfold floorSqrt
  have hpred : ∀ k : Nat, (fun k => decide (k * k ≤ n)) k =
      (fun k => decide (k < Nat.sqrt n + 1)) k := by
    intro k
    simp only [decide_eq_decide]
    rw [Nat.lt_succ_iff, ← Nat.le_sqrt]
  rw [List.filter_congr (fun k _ => hpred k), length_filter_range_lt]
  have := Nat.sqrt_le_self n
  omega

/-- The comparison key of the corner `min_by_key` in
`HoleFiller::adjust_endpoints`: the Euclidean distance computed in `f64`
and truncated by `as i32`, i.e. the floor of the square root of the
squared distance. -/
def cornerKey (e c : Int × Int) : Nat :=
  floorSqrt ((e.1 - c.1).natAbs ^ 2 + (e.2 - c.2).natAbs ^ 2)

/-- Embeds `HoleFiller::adjust_endpoints`. -/
def adjust_endpoints (hole_rect : BoundingRect) (endpoints : List (Int × Int)) :
    List (Int × Int) :=
  endpoints.map (fun e =>
    if hole_rect.have_point_on_boundary e then e
    else if decide (hole_rect.left ≤ e.1) && decide (e.1 ≤ hole_rect.right) then
      (e.1,
        if (hole_rect.top - e.2).natAbs < (hole_rect.bottom - e.2).natAbs then hole_rect.top
        else hole_rect.bottom)
    else if decide (hole_rect.top ≤ e.2) && decide (e.2 ≤ hole_rect.bottom) then
      ((if (hole_rect.left - e.1).natAbs < (hole_rect.right - e.1).natAbs then hole_rect.left
        else hole_rect.right), e.2)
    else
      (minByKeyFirst (cornerKey e)
        [hole_rect.top_left, hole_rect.top_right,
         hole_rect.bottom_left, hole_rect.bottom_right]).getD (0, 0))

/-! ### filler.rs : boundary walk -/

/-- Embeds the closure `sample_point` (cyclic midpoint between two
positions). -/
def sample_point (num_points a b : Nat) : Nat :=
  let cyclic_dist := if b ≥ a then b - a else num_points - (a - b)
  (a + cyclic_dist / 2) % num_points

/-- Embeds the closure `eval_outside_point`. -/
def eval_outside_point (hole_rect : BoundingRect) (bps : List (Int × Int))
    (i : Nat) : Int × Int :=
  let pv := bps.getD i (0, 0)
  if pv.1 = hole_rect.right ∨ pv.2 = hole_rect.bottom then pv
  else hole_rect.get_closest_point_outside pv

/-- Embeds the closure `eval_inside_point`. -/
def eval_inside_point (hole_rect : BoundingRect) (bps : List (Int × Int))
    (i : Nat) : Int × Int :=
  let pv := bps.getD i (0, 0)
  if pv.1 = hole_rect.left ∨ pv.2 = hole_rect.top then pv
  else hole_rect.get_closest_point_inside pv

/-- Embeds the inner loop of `fill_holes`: advance cyclically from `cur`,
counting visited points (`total`) and blank exterior samples (`blank`),
until the point at the current position is an endpoint.  The fuel only
bounds the number of steps of this model; `fill_holes` hands it `n`, which
is enough whenever position `0` holds an endpoint. -/
def scanArc (n : Nat) (isEp : Nat → Bool) (outsideBlank : Nat → Bool) :
    Nat → Nat → Nat → Nat → Option (Nat × Nat × Nat)
  | 0, _, _, _ => none
  | fuel + 1, cur, total, blank =>
    let cur' := (cur + 1) % n
    let total' := total + 1
    let blank' := if outsideBlank cur' then blank + 1 else blank
    if isEp cur' then some (cur', total', blank')
    else scanArc n isEp outsideBlank fuel cur' total' blank'

/-- Embeds the seed derivation and flood filling of one qualifying arc
(`sampled_points` and the `for_each` around `fill_hole_iterative`). -/
def fillArcSeeds (n : Nat) (hole_rect : BoundingRect) (bps : List (Int × Int))
    (offset : Int × Int) (m : FilledHoleMatrix) (prev stop : Nat) : FilledHoleMatrix :=
  let mid := sample_point n prev stop
  [sample_point n prev mid, mid, sample_point n mid stop].foldl
    (fun acc sp =>
      let ip := eval_inside_point hole_rect bps sp
      fill_hole_iterative acc (ip.1 - offset.1, ip.2 - offset.2)) m

/-- One iteration of the outer `loop` of `fill_holes`: scan the next arc
from `cur` (starting both counters at `0`), then fill it iff
`total > threshold && blank <= threshold`; returns the updated matrix and
the endpoint position where the scan stopped (`none` when the inner loop
found no endpoint within `n` steps, which cannot happen when position `0`
holds an endpoint). -/
def arcStep (n : Nat) (isEp : Nat → Bool) (outsideBlank : Nat → Bool)
    (threshold : Nat) (fillArc : FilledHoleMatrix → Nat → Nat → FilledHoleMatrix)
    (cur : Nat) (m : FilledHoleMatrix) : Option (FilledHoleMatrix × Nat) :=
  match scanArc n isEp outsideBlank n cur 0 0 with
  | none => none
  | some (stop, total, blank) =>
    some ((if decide (threshold < total) && decide (blank ≤ threshold)
      then fillArc m cur stop else m), stop)

/-- Embeds the outer `loop` of `fill_holes`: process one arc, stop when the
scan ended at position `0`, otherwise skip one position and repeat.  The
loop has no bound in the source; the fuel only bounds this model, and
`none` means the fuel was exhausted before the loop broke. -/
def walkLoop (n : Nat) (isEp : Nat → Bool) (outsideBlank : Nat → Bool)
    (threshold : Nat) (fillArc : FilledHoleMatrix → Nat → Nat → FilledHoleMatrix) :
    Nat → Nat → FilledHoleMatrix → Option FilledHoleMatrix
  | 0, _, _ => none
  | fuel + 1, cur, m =>
    match arcStep n isEp outsideBlank threshold fillArc cur m with
    | none => none
    | some (m', stop) =>
      if stop = 0 then some m'
      else walkLoop n isEp outsideBlank threshold fillArc fuel ((stop + 1) % n) m'

/-- Embeds `HoleFiller::fill_holes`: adjust the endpoints (`endpoints[0]`
panics when the list is empty), enumerate the boundary from the first
endpoint and run the walk from position `0`. -/
def fill_holes (fuel : Nat) (m : FilledHoleMatrix) (image : Int × Int → Bool)
    (hole_rect : BoundingRect) (offset : Int × Int) (endpoints : List (Int × Int))
    (threshold : Nat) : Option (Except String FilledHoleMatrix) :=
  match adjust_endpoints hole_rect endpoints with
  | [] => some (Except.error "index out of bounds")
  | e0 :: rest =>
    let eps := e0 :: rest
    let bps := hole_rect.get_boundary_points_from e0
    let n := bps.length
    let isEp := fun i => decide (bps.getD i (0, 0) ∈ eps)
    let outsideBlank := fun i => !(image (eval_outside_point hole_rect bps i))
    (walkLoop n isEp outsideBlank threshold (fillArcSeeds n hole_rect bps offset)
      fuel 0 m).map Except.ok

/-- Embeds `HoleFiller::fill`: build the all-`Blank` matrix of the hole
rectangle's size, rasterize the curves and run the boundary-walk fill. -/
noncomputable def fill (fuel : Nat) (sampler : List (ℝ × ℝ) → List (ℝ × ℝ))
    (image : Int × Int → Bool) (hole_rect : BoundingRect)
    (curves : List CompoundPathElement) (endpoints : List (Int × Int))
    (threshold : Nat) : Option (Except String FilledHoleMatrix) :=
  let matrix := FilledHoleMatrix.new (usizeOfI32 hole_rect.width) (usizeOfI32 hole_rect.height)
  let origin := (hole_rect.left, hole_rect.top)
  match rasterize_intrapolated_curves sampler matrix curves origin with
  | Except.error e => some (Except.error e)
  | Except.ok m => fill_holes fuel m image hole_rect origin endpoints threshold

/-! ### Claim C1 -/

/-- Claim C1 (code bug): the claim states that any two `Matching` values
holding the same bijection up to pair order and in-pair swaps compare
equal and hash equal — in particular that a `Matching` equals a reordering
of itself.  The code violates this: for the bijection
`{(0,1), (1,2), (2,0)}` the canonicalized pairs `(0,1)` and `(0,2)` share
the first component, the `HashMap` keeps only the later one, and
`PartialEq::eq` returns `false` against a reordering of the same pairs
(and even against the identical pair list), while the hash data of the two
orderings is equal as claimed. -/
theorem c1_matching_eq_fails_on_reordering :
    matchingEq ⟨[(0, 1), (1, 2), (2, 0)]⟩ ⟨[(1, 2), (2, 0), (0, 1)]⟩ = false ∧
    matchingEq ⟨[(0, 1), (1, 2), (2, 0)]⟩ ⟨[(0, 1), (1, 2), (2, 0)]⟩ = false ∧
    matchingHashData ⟨[(0, 1), (1, 2), (2, 0)]⟩ =
      matchingHashData ⟨[(1, 2), (2, 0), (0, 1)]⟩ := by
  decide

/-! ### Claim C3 -/

/-- Claim C3 (counterexample): for the rectangle `[0,1] × [0,1]` and the
corner-quadrant endpoint `(11, 2)`, `adjust_endpoints` returns the
top-right corner `(1, 0)`, although the bottom-right corner `(1, 1)` is
strictly nearer by Euclidean distance (squared distances `101 < 104`): the
truncated keys of both corners are `10`, and `min_by_key` keeps the
earlier corner. -/
theorem c3_counterexample :
    adjust_endpoints ⟨0, 0, 1, 1⟩ [(11, 2)] = [(1, 0)] ∧
    ((1 : Int), (0 : Int)) ≠ ((1 : Int), (1 : Int)) ∧
    ((11 - 1 : Int) ^ 2 + (2 - 1 : Int) ^ 2 < (11 - 1 : Int) ^ 2 + (2 - 0 : Int) ^ 2) := by
  decide

/-- Claim C3 (amended): for every endpoint in a corner quadrant, the returned
point is the corner whose *integer-truncated* Euclidean distance
(`distance_to(..) as i32`, the floor of the true distance) is minimal,
with ties in the truncated key broken by the selection order top-left,
top-right, bottom-left, bottom-right — not the corner nearest by exact
Euclidean distance. -/
theorem c3_corner_snap_truncated_distance (r : BoundingRect) (e : Int × Int)
    (hb : r.have_point_on_boundary e = false)
    (hx : ¬(r.left ≤ e.1 ∧ e.1 ≤ r.right))
    (hy : ¬(r.top ≤ e.2 ∧ e.2 ≤ r.bottom)) :
    ∃ i, i < 4 ∧
      adjust_endpoints r [e] =
        [([r.top_left, r.top_right, r.bottom_left, r.bottom_right]).getD i (0, 0)] ∧
      (∀ j, j < 4 →
        cornerKey e (([r.top_left, r.top_right, r.bottom_left, r.bottom_right]).getD i (0, 0)) ≤
          cornerKey e (([r.top_left, r.top_right, r.bottom_left, r.bottom_right]).getD j (0, 0))) ∧
      (∀ j, j < i →
        cornerKey e (([r.top_left, r.top_right, r.bottom_left, r.bottom_right]).getD i (0, 0)) <
          cornerKey e (([r.top_left, r.top_right, r.bottom_left, r.bottom_right]).getD j (0, 0))) := by
  have hx' : (decide (r.left ≤ e.1) && decide (e.1 ≤ r.right)) = false := by
    rcases Decidable.em (r.left ≤ e.1) with h | h <;>
      rcases Decidable.em (e.1 ≤ r.right) with h2 | h2 <;> simp [h, h2] <;> exact hx ⟨h, h2⟩
  have hy' : (decide (r.top ≤ e.2) && decide (e.2 ≤ r.bottom)) = false := by
    rcases Decidable.em (r.top ≤ e.2) with h | h <;>
      rcases Decidable.em (e.2 ≤ r.bottom) with h2 | h2 <;> simp [h, h2] <;> exact hy ⟨h, h2⟩
  simp only [adjust_endpoints, List.map, hb, hx', hy', Bool.false_eq_true, if_false,
    minByKeyFirst, List.foldl, Option.getD_some]
  split_ifs with h1 h2 h3 h4 h5 h6 h7 <;>
    [exact ⟨3, by omega, rfl, by intro j hj; interval_cases j <;> simp_all [List.getD] <;> omega,
      by intro j hj; interval_cases j <;> simp_all [List.getD] <;> omega⟩;
     exact ⟨2, by omega, rfl, by intro j hj; interval_cases j <;> simp_all [List.getD] <;> omega,
      by intro j hj; interval_cases j <;> simp_all [List.getD] <;> omega⟩;
     exact ⟨3, by omega, rfl, by intro j hj; interval_cases j <;> simp_all [List.getD] <;> omega,
      by intro j hj; interval_cases j <;> simp_all [List.getD] <;> omega⟩;
     exact ⟨1, by omega, rfl, by intro j hj; interval_cases j <;> simp_all [List.getD] <;> omega,
      by intro j hj; interval_cases j <;> simp_all [List.getD] <;> omega⟩;
     exact ⟨3, by omega, rfl, by intro j hj; interval_cases j <;> simp_all [List.getD] <;> omega,
      by intro j hj; interval_cases j <;> simp_all [List.getD] <;> omega⟩;
     exact ⟨2, by omega, rfl, by intro j hj; interval_cases j <;> simp_all [List.getD] <;> omega,
      by intro j hj; interval_cases j <;> simp_all [List.getD] <;> omega⟩;
     exact ⟨3, by omega, rfl, by intro j hj; interval_cases j <;> simp_all [List.getD] <;> omega,
      by intro j hj; interval_cases j <;> simp_all [List.getD] <;> omega⟩;
     exact ⟨0, by omega, rfl, by intro j hj; interval_cases j <;> simp_all [List.getD] <;> omega,
      by intro j hj; interval_cases j <;> simp_all [List.getD] <;> omega⟩]

/-- Claim C3 witness: the amended theorem applied at the concrete
counterexample input. -/
theorem c3_corner_snap_truncated_distance_witness :
    (BoundingRect.have_point_on_boundary ⟨0, 0, 1, 1⟩ (11, 2) = false) ∧
    ¬((0 : Int) ≤ 11 ∧ (11 : Int) ≤ 1) ∧ ¬((0 : Int) ≤ 2 ∧ (2 : Int) ≤ 1) ∧
    (∃ i, i < 4 ∧
      adjust_endpoints ⟨0, 0, 1, 1⟩ [(11, 2)] =
        [([BoundingRect.top_left ⟨0, 0, 1, 1⟩, BoundingRect.top_right ⟨0, 0, 1, 1⟩,
           BoundingRect.bottom_left ⟨0, 0, 1, 1⟩, BoundingRect.bottom_right ⟨0, 0, 1, 1⟩]).getD i (0, 0)] ∧
      (∀ j, j < 4 →
        cornerKey (11, 2) (([BoundingRect.top_left ⟨0, 0, 1, 1⟩, BoundingRect.top_right ⟨0, 0, 1, 1⟩,
           BoundingRect.bottom_left ⟨0, 0, 1, 1⟩, BoundingRect.bottom_right ⟨0, 0, 1, 1⟩]).getD i (0, 0)) ≤
          cornerKey (11, 2) (([BoundingRect.top_left ⟨0, 0, 1, 1⟩, BoundingRect.top_right ⟨0, 0, 1, 1⟩,
           BoundingRect.bottom_left ⟨0, 0, 1, 1⟩, BoundingRect.bottom_right ⟨0, 0, 1, 1⟩]).getD j (0, 0))) ∧
      (∀ j, j < i →
        cornerKey (11, 2) (([BoundingRect.top_left ⟨0, 0, 1, 1⟩, BoundingRect.top_right ⟨0, 0, 1, 1⟩,
           BoundingRect.bottom_left ⟨0, 0, 1, 1⟩, BoundingRect.bottom_right ⟨0, 0, 1, 1⟩]).getD i (0, 0)) <
          cornerKey (11, 2) (([BoundingRect.top_left ⟨0, 0, 1, 1⟩, BoundingRect.top_right ⟨0, 0, 1, 1⟩,
           BoundingRect.bottom_left ⟨0, 0, 1, 1⟩, BoundingRect.bottom_right ⟨0, 0, 1, 1⟩]).getD j (0, 0)))) :=
  ⟨by decide, by decide, by decide,
    c3_corner_snap_truncated_distance ⟨0, 0, 1, 1⟩ (11, 2) (by decide) (by decide) (by decide)⟩

/-! ### Claim C10 -/

/-- Claim C10: polyline rasterization is not total.  An integer polyline
vertex with a negative hole-local coordinate is cast by `as usize` into a
huge index without any clamping (unlike Bezier samples, which are
clamped), the grid index computation goes out of range, and
`HoleFiller::fill` panics ("index out of bounds") instead of returning,
for every fuel and every Bezier sampler. -/
theorem c10_polyline_vertex_out_of_range_panics :
    ∀ (fuel : Nat) (sampler : List (ℝ × ℝ) → List (ℝ × ℝ)),
      fill fuel sampler (fun _ => true) ⟨0, 0, 4, 4⟩
        [CompoundPathElement.pathI32 [(-1, 0)]] [(0, 0)] 0 =
        some (Except.error "index out of bounds") := by
  intro fuel sampler
  rfl

/-! ### Claim C2 -/

theorem walkLoop_none_of_fixpoint (n : Nat) (isEp ob : Nat → Bool) (t : Nat)
    (fa : FilledHoleMatrix → Nat → Nat → FilledHoleMatrix) (cur stop : Nat)
    (hstop : stop ≠ 0) (hc : (stop + 1) % n = cur)
    (ha : ∀ m, arcStep n isEp ob t fa cur m = some (m, stop)) :
    ∀ fuel m, walkLoop n isEp ob t fa fuel cur m = none := by
  intro fuel
  induction fuel with
  | zero => intro m; rfl
  | succ f ih =>
    intro m
    rw [walkLoop, ha m]
    simp only [hstop, if_false, hc]
    exact ih m

/-- The boundary point sequence of the rectangle `[0,2] × [0,2]` from
`(0,0)`, for the concrete non-termination input of C2. -/
def bps8 : List (Int × Int) := BoundingRect.get_boundary_points_from ⟨0, 0, 2, 2⟩ (0, 0)

/-- The endpoint test of `fill_holes` for the C2 input
(endpoints `(0,0)` and `(0,1)`). -/
def c2IsEp : Nat → Bool :=
  fun i => decide (bps8.getD i (0, 0) ∈ [((0 : Int), (0 : Int)), ((0 : Int), (1 : Int))])

/-- The blank-exterior test of `fill_holes` for the C2 input (the source
image is everywhere foreground). -/
def c2Ob : Nat → Bool :=
  fun i => !((fun (_ : Int × Int) => true) (eval_outside_point ⟨0, 0, 2, 2⟩ bps8 i))

/-- The arc-filling operation of `fill_holes` for the C2 input. -/
def c2Fa : FilledHoleMatrix → Nat → Nat → FilledHoleMatrix :=
  fillArcSeeds 8 ⟨0, 0, 2, 2⟩ bps8 (0, 0)

/-- Claim C2 (code bug): the claim states that the boundary walk of
`fill_holes` always returns to the starting endpoint after finitely many
steps, so `HoleFiller::fill` always returns.  It does not: with the hole
rectangle `[0,2] × [0,2]` and endpoints `(0,0)` and `(0,1)` — the second
endpoint sits at the boundary position immediately preceding the start —
every arc scan stops at position `7`, the skip `current_point + 1` lands
back on position `0` *after* the `current_point == 0` exit test has
already been evaluated, and the loop repeats forever: for every fuel the
walk model returns `none`. -/
theorem c2_boundary_walk_does_not_terminate :
    ∀ (fuel : Nat) (sampler : List (ℝ × ℝ) → List (ℝ × ℝ)),
      fill fuel sampler (fun _ => true) ⟨0, 0, 2, 2⟩ [] [(0, 0), (0, 1)] 100 = none := by
  intro fuel sampler
  have ha : ∀ m, arcStep 8 c2IsEp c2Ob 100 c2Fa 0 m = some (m, 7) := by
    intro m
    have hscan : scanArc 8 c2IsEp c2Ob 8 0 0 0 = some (7, 7, 0) := by decide
    simp [arcStep, hscan]
  have hfill : fill fuel sampler (fun _ => true) ⟨0, 0, 2, 2⟩ [] [(0, 0), (0, 1)] 100 =
      (walkLoop 8 c2IsEp c2Ob 100 c2Fa fuel 0 (FilledHoleMatrix.new 2 2)).map Except.ok := rfl
  rw [hfill,
    walkLoop_none_of_fixpoint 8 c2IsEp c2Ob 100 c2Fa 0 7 (by decide) (by decide) ha fuel _]
  rfl

/-! ### Claim C4 -/

/-- Claim C4: during the boundary walk, the flood-fill seeds of an arc — the
quarter, half and three-quarter cyclic sample positions flood-filled by
`fillArcSeeds` — are derived if and only if the arc's total visited count
exceeds the threshold and its blank-exterior count does not exceed the
threshold; an arc failing the test leaves the matrix untouched. -/
theorem c4_arc_filled_iff_threshold_test (n : Nat) (isEp ob : Nat → Bool)
    (t : Nat) (r : BoundingRect) (bps : List (Int × Int)) (offset : Int × Int)
    (cur : Nat) (m : FilledHoleMatrix) (stop total blank : Nat)
    (hscan : scanArc n isEp ob n cur 0 0 = some (stop, total, blank)) :
    (t < total ∧ blank ≤ t →
      arcStep n isEp ob t (fillArcSeeds n r bps offset) cur m =
        some (fillArcSeeds n r bps offset m cur stop, stop)) ∧
    (¬(t < total ∧ blank ≤ t) →
      arcStep n isEp ob t (fillArcSeeds n r bps offset) cur m = some (m, stop)) := by
  refine ⟨fun h => ?_, fun h => ?_⟩
  · simp [arcStep, hscan, h.1, h.2]
  · have hcond : (decide (t < total) && decide (blank ≤ t)) = false := by
      rcases Decidable.em (t < total) with h1 | h1
      · rcases Decidable.em (blank ≤ t) with h2 | h2
        · exact absurd ⟨h1, h2⟩ h
        · simp [h1, h2]
      · simp [h1]
    simp [arcStep, hscan, hcond]

/-- The endpoint test for the C4 witness (endpoints `(0,0)` and `(2,2)` on
the rectangle `[0,2] × [0,2]`, at boundary positions `0` and `4`). -/
def c4IsEp : Nat → Bool :=
  fun i => decide (bps8.getD i (0, 0) ∈ [((0 : Int), (0 : Int)), ((2 : Int), (2 : Int))])

/-- The blank-exterior test for the C4 witness (all-foreground image). -/
def c4Ob : Nat → Bool :=
  fun i => !((fun (_ : Int × Int) => true) (eval_outside_point ⟨0, 0, 2, 2⟩ bps8 i))

/-- Claim C4 witness: on the rectangle `[0,2] × [0,2]` with endpoints `(0,0)`
and `(2,2)` and an all-foreground image, the first arc scan gives
`total = 4`, `blank = 0`; with threshold `2` the test passes and the arc is
filled. -/
theorem c4_arc_filled_iff_threshold_test_witness :
    scanArc 8 c4IsEp c4Ob 8 0 0 0 = some (4, 4, 0) ∧
    arcStep 8 c4IsEp c4Ob 2 (fillArcSeeds 8 ⟨0, 0, 2, 2⟩ bps8 (0, 0)) 0
        (FilledHoleMatrix.new 2 2) =
      some (fillArcSeeds 8 ⟨0, 0, 2, 2⟩ bps8 (0, 0) (FilledHoleMatrix.new 2 2) 0 4, 4) :=
  ⟨by decide,
    (c4_arc_filled_iff_threshold_test 8 c4IsEp c4Ob 2 ⟨0, 0, 2, 2⟩ bps8 (0, 0) 0
      (FilledHoleMatrix.new 2 2) 4 4 0 (by decide)).1 (by omega)⟩

/-! ### Claim C9 -/

theorem spline_foldlM_bad (sampler : List (ℝ × ℝ) → List (ℝ × ℝ)) (origin : Int × Int)
    (cpss : List (List (ℝ × ℝ))) (m : FilledHoleMatrix)
    (hbad : ∃ cps ∈ cpss, cps.length ≠ 4) :
    rasterizePathElement sampler origin m (CompoundPathElement.spline cpss) =
      Except.error "Control points must have 4 elements" := by
  induction cpss generalizing m with
  | nil => simp at hbad
  | cons c rest ih =>
    simp only [rasterizePathElement, List.foldlM_cons] at ih ⊢
    by_cases hc : c.length = 4
    · have : ∃ cps ∈ rest, cps.length ≠ 4 := by
        obtain ⟨cps, hmem, hlen⟩ := hbad
        rcases List.mem_cons.mp hmem with h | h
        · exact absurd (h ▸ hc) hlen
        · exact ⟨cps, h, hlen⟩
      simp only [hc, if_true]
      exact ih _ this
    · rw [if_neg hc]
      rfl

theorem spline_foldlM_good (sampler : List (ℝ × ℝ) → List (ℝ × ℝ)) (origin : Int × Int)
    (cpss : List (List (ℝ × ℝ))) (m : FilledHoleMatrix)
    (hgood : ∀ cps ∈ cpss, cps.length = 4) :
    ∃ m', rasterizePathElement sampler origin m (CompoundPathElement.spline cpss) =
      Except.ok m' := by
  induction cpss generalizing m with
  | nil => exact ⟨m, rfl⟩
  | cons c rest ih =>
    simp only [rasterizePathElement, List.foldlM_cons] at ih ⊢
    have hc := hgood c (List.mem_cons_self _ _)
    simp only [hc, if_true]
    exact ih _ (fun cps hm => hgood cps (List.mem_cons_of_mem _ hm))

theorem setChecked_ok_or_ioob (m : FilledHoleMatrix) (p : Nat × Nat)
    (v : FilledHoleElement) :
    (∃ r, m.setChecked p v = Except.ok r) ∨
      m.setChecked p v = Except.error "index out of bounds" := by
  unfold FilledHoleMatrix.setChecked
  by_cases h : (p.2 * m.width + p.1) % 2 ^ 64 < m.elems.length
  · exact Or.inl ⟨_, dif_pos h⟩
  · exact Or.inr (dif_neg h)

theorem setChecked_foldlM_cases {α : Type} (g : FilledHoleMatrix → α → Except String FilledHoleMatrix)
    (hg : ∀ acc p, (∃ r, g acc p = Except.ok r) ∨ g acc p = Except.error "index out of bounds")
    (pts : List α) (m : FilledHoleMatrix) :
    (∃ m', pts.foldlM g m = Except.ok m') ∨
      pts.foldlM g m = Except.error "index out of bounds" := by
  induction pts generalizing m with
  | nil => exact Or.inl ⟨m, rfl⟩
  | cons p rest ih =>
    simp only [List.foldlM_cons]
    rcases hg m p with ⟨r, hr⟩ | hr
    · rw [hr]; exact ih r
    · rw [hr]; exact Or.inr rfl

theorem rasterizePathElement_cases (sampler : List (ℝ × ℝ) → List (ℝ × ℝ))
    (origin : Int × Int) (el : CompoundPathElement) (m : FilledHoleMatrix)
    (hgood : ∀ cpss, el = CompoundPathElement.spline cpss → ∀ cps ∈ cpss, cps.length = 4) :
    (∃ m', rasterizePathElement sampler origin m el = Except.ok m') ∨
      rasterizePathElement sampler origin m el = Except.error "index out of bounds" := by
  cases el with
  | pathI32 points =>
    exact setChecked_foldlM_cases _ (fun acc p => setChecked_ok_or_ioob acc _ _) points m
  | pathF64 points =>
    exact setChecked_foldlM_cases _ (fun acc p => setChecked_ok_or_ioob acc _ _) points m
  | spline cpss =>
    exact Or.inl (spline_foldlM_good sampler origin cpss m (hgood cpss rfl))

/-- Claim C9: a spline segment whose control-point list has length other than
four makes rasterization abort with the diagnostic
`"Control points must have 4 elements"`: (a) processing that spline element
aborts with exactly that message; (b) any curve input containing such a
spline makes `rasterize_intrapolated_curves` abort (it never returns a
matrix); (c) when every spline segment has exactly four control points the
four-control-point abort is never taken (any abort can only be the
polyline index panic). -/
theorem c9_spline_four_control_points (sampler : List (ℝ × ℝ) → List (ℝ × ℝ))
    (origin : Int × Int) :
    (∀ (m : FilledHoleMatrix) (cpss : List (List (ℝ × ℝ))),
      (∃ cps ∈ cpss, cps.length ≠ 4) →
        rasterizePathElement sampler origin m (CompoundPathElement.spline cpss) =
          Except.error "Control points must have 4 elements") ∧
    (∀ (m : FilledHoleMatrix) (curves : List CompoundPathElement),
      (∃ cpss, CompoundPathElement.spline cpss ∈ curves ∧ ∃ cps ∈ cpss, cps.length ≠ 4) →
        ∃ e, rasterize_intrapolated_curves sampler m curves origin = Except.error e) ∧
    (∀ (m : FilledHoleMatrix) (curves : List CompoundPathElement),
      (∀ cpss, CompoundPathElement.spline cpss ∈ curves → ∀ cps ∈ cpss, cps.length = 4) →
        rasterize_intrapolated_curves sampler m curves origin ≠
          Except.error "Control points must have 4 elements") := by
  refine ⟨fun m cpss h => spline_foldlM_bad sampler origin cpss m h, ?_, ?_⟩
  · intro m curves hbad
    induction curves generalizing m with
    | nil => simp at hbad
    | cons el rest ih =>
      obtain ⟨cpss, hmem, hcps⟩ := hbad
      simp only [rasterize_intrapolated_curves, List.foldlM_cons] at ih ⊢
      rcases List.mem_cons.mp hmem with h | h
      · subst h
        rw [spline_foldlM_bad sampler origin cpss m hcps]
        exact ⟨_, rfl⟩
      · cases hel : rasterizePathElement sampler origin m el with
        | error e => exact ⟨e, rfl⟩
        | ok m' => exact ih _ ⟨cpss, h, hcps⟩
  · intro m curves hgood
    induction curves generalizing m with
    | nil => exact fun h => Except.noConfusion h
    | cons el rest ih =>
      simp only [rasterize_intrapolated_curves, List.foldlM_cons] at ih ⊢
      rcases rasterizePathElement_cases sampler origin el m
          (fun cpss hel => hgood cpss (hel ▸ List.mem_cons_self _ _)) with ⟨m', hm'⟩ | herr
      · rw [hm']
        exact ih _ (fun cpss hmem => hgood cpss (List.mem_cons_of_mem _ hmem))
      · rw [herr]
        exact fun hcontra => absurd (Except.error.inj hcontra) (by decide)

/-- Claim C9 witness: a single spline whose only segment carries one control
point aborts with the four-control-point diagnostic, and a well-formed
four-point segment does not trigger it. -/
theorem c9_spline_four_control_points_witness :
    (∃ cps ∈ [[((0 : ℝ), (0 : ℝ))]], cps.length ≠ 4) ∧
    rasterizePathElement (fun l => l) (0, 0) (FilledHoleMatrix.new 2 2)
        (CompoundPathElement.spline [[((0 : ℝ), (0 : ℝ))]]) =
      Except.error "Control points must have 4 elements" :=
  ⟨by decide,
    (c9_spline_four_control_points (fun l => l) (0, 0)).1 (FilledHoleMatrix.new 2 2)
      [[((0 : ℝ), (0 : ℝ))]] (by decide)⟩

/-! ### Claims C7 and C8 : helper lemmas -/

theorem minFold_spec {α : Type} (key : α → Nat) (xs : List α) (b : α) :
    (xs.foldl (fun best c => if key c < key best then c else best) b = b ∨
      xs.foldl (fun best c => if key c < key best then c else best) b ∈ xs) ∧
    key (xs.foldl (fun best c => if key c < key best then c else best) b) ≤ key b ∧
    ∀ y ∈ xs, key (xs.foldl (fun best c => if key c < key best then c else best) b) ≤ key y := by
  induction xs generalizing b with
  | nil => exact ⟨Or.inl rfl, le_refl _, by simp⟩
  | cons c rest ih =>
    simp only [List.foldl_cons]
    obtain ⟨hm, hb, hall⟩ := ih (if key c < key b then c else b)
    have hstep : key (if key c < key b then c else b) ≤ key b := by
      by_cases hc : key c < key b <;> simp [hc] <;> omega
    have hstepc : key (if key c < key b then c else b) ≤ key c := by
      by_cases hc : key c < key b <;> simp [hc] <;> omega
    refine ⟨?_, ?_, ?_⟩
    · rcases hm with h | h
      · by_cases hc : key c < key b
        · right
          rw [h]
          simp [hc]
        · left
          rw [h]
          simp [hc]
      · right
        exact List.mem_cons_of_mem _ h
    · exact le_trans hb hstep
    · intro y hy
      rcases List.mem_cons.mp hy with h | h
      · subst h
        exact le_trans hb hstepc
      · exact hall y h

theorem minByKeyFirst_spec {α : Type} (key : α → Nat) (l : List α) (x : α)
    (hx : minByKeyFirst key l = some x) : x ∈ l ∧ ∀ y ∈ l, key x ≤ key y := by
  cases l with
  | nil => exact absurd hx (by simp [minByKeyFirst])
  | cons b xs =>
    obtain ⟨hm, hb, hall⟩ := minFold_spec key xs b
    have hx' : xs.foldl (fun best c => if key c < key best then c else best) b = x :=
      Option.some.inj hx
    refine ⟨?_, ?_⟩
    · rcases hx' ▸ hm with h | h
      · exact h ▸ List.mem_cons_self _ _
      · exact List.mem_cons_of_mem _ h
    · intro y hy
      rcases List.mem_cons.mp hy with h | h
      · exact h ▸ hx' ▸ hb
      · exact hx' ▸ hall y h

theorem minByKeyFirst_eq_none {α : Type} (key : α → Nat) (l : List α) :
    minByKeyFirst key l = none ↔ l = [] := by
  cases l <;> simp [minByKeyFirst]

theorem getD_point_congr (l l' : List MatchItem)
    (h : l'.map MatchItem.point = l.map MatchItem.point) (a : Nat) :
    (l'.getD a ⟨0, (0, 0), (0, 0)⟩).point = (l.getD a ⟨0, (0, 0), (0, 0)⟩).point := by
  have hlen : l'.length = l.length := by
    have := congrArg List.length h
    simpa using this
  by_cases ha : a < l.length
  · have e1 : (l'.getD a ⟨0, (0, 0), (0, 0)⟩).point =
        (l'.map MatchItem.point).getD a (MatchItem.point ⟨0, (0, 0), (0, 0)⟩) :=
      (List.getD_map _ _ _).symm
    have e2 : (l.getD a ⟨0, (0, 0), (0, 0)⟩).point =
        (l.map MatchItem.point).getD a (MatchItem.point ⟨0, (0, 0), (0, 0)⟩) :=
      (List.getD_map _ _ _).symm
    rw [e1, e2, h]
  · rw [List.getD_eq_default _ _ (by omega), List.getD_eq_default _ _ (by omega)]

/-! ### Claim C8 -/

/-- Claim C8: every entry `(i, j)` of the matrix built by
`SquareDistanceMatrix::from_two_sets` equals the Euclidean distance between
the *locations* of `A[i]` and `B[j]` (row-major entry `i*n + j`), and the
direction components do not affect any entry: two input pairs agreeing on
locations produce identical distance vectors. -/
theorem c8_from_two_sets_entries (s1 s2 s1' s2' : MatchItemSet)
    (M M' : SquareDistanceMatrix)
    (hM : from_two_sets s1 s2 = Except.ok M)
    (hM' : from_two_sets s1' s2' = Except.ok M')
    (h1 : s1'.items.map MatchItem.point = s1.items.map MatchItem.point)
    (h2 : s2'.items.map MatchItem.point = s2.items.map MatchItem.point)
    (i j : Nat) (hi : i < M.n) (hj : j < M.n) :
    M.distances.getD (i * M.n + j) 0 =
      pointDistanceTo (s1.items.getD i ⟨0, (0, 0), (0, 0)⟩).point
        (s2.items.getD j ⟨0, (0, 0), (0, 0)⟩).point ∧
    M'.distances = M.distances := by
  unfold from_two_sets at hM hM'
  by_cases hl : s1.items.length = s2.items.length
  case neg => rw [if_neg hl] at hM; exact absurd hM (by simp)
  by_cases hl' : s1'.items.length = s2'.items.length
  case neg => rw [if_neg hl'] at hM'; exact absurd hM' (by simp)
  rw [if_pos hl] at hM
  rw [if_pos hl'] at hM'
  have hMv := (Except.ok.inj hM).symm
  have hMv' := (Except.ok.inj hM').symm
  have hn : M.n = s1.items.length := by rw [hMv]
  have hn' : M'.n = s1'.items.length := by rw [hMv']
  have hlen11 : s1'.items.length = s1.items.length := by
    have := congrArg List.length h1
    simpa using this
  constructor
  · have hij : i * M.n + j < M.n * M.n := by
      have h1' : i * M.n + j < (i + 1) * M.n := by
        have : (i + 1) * M.n = i * M.n + M.n := by ring
        omega
      have h2' : (i + 1) * M.n ≤ M.n * M.n := Nat.mul_le_mul_right _ (by omega)
      omega
    have hd : M.distances = (List.range (M.n * M.n)).map (fun k =>
        MatchItem.distance_to (s1.items.getD (k / M.n) ⟨0, (0, 0), (0, 0)⟩)
          (s2.items.getD (k % M.n) ⟨0, (0, 0), (0, 0)⟩)) := by
      rw [hMv]
    rw [hd, List.getD_eq_getElem _ _ (by simpa using hij), List.getElem_map,
      List.getElem_range]
    have hdiv : (i * M.n + j) / M.n = i := by
      rw [Nat.add_comm, Nat.add_mul_div_right _ _ (by omega : 0 < M.n),
        Nat.div_eq_of_lt hj]
      omega
    have hmod : (i * M.n + j) % M.n = j := by
      rw [Nat.add_comm, Nat.add_mul_mod_self_right, Nat.mod_eq_of_lt hj]
    rw [hdiv, hmod]
    rfl
  · have hnn : M'.n = M.n := by rw [hn, hn', hlen11]
    have hd : M.distances = (List.range (M.n * M.n)).map (fun k =>
        MatchItem.distance_to (s1.items.getD (k / M.n) ⟨0, (0, 0), (0, 0)⟩)
          (s2.items.getD (k % M.n) ⟨0, (0, 0), (0, 0)⟩)) := by rw [hMv]
    have hd' : M'.distances = (List.range (M'.n * M'.n)).map (fun k =>
        MatchItem.distance_to (s1'.items.getD (k / M'.n) ⟨0, (0, 0), (0, 0)⟩)
          (s2'.items.getD (k % M'.n) ⟨0, (0, 0), (0, 0)⟩)) := by rw [hMv']
    rw [hd, hd', hnn]
    refine List.map_congr_left (fun k _ => ?_)
    show pointDistanceTo (s1'.items.getD (k / M.n) ⟨0, (0, 0), (0, 0)⟩).point
        (s2'.items.getD (k % M.n) ⟨0, (0, 0), (0, 0)⟩).point =
      pointDistanceTo (s1.items.getD (k / M.n) ⟨0, (0, 0), (0, 0)⟩).point
        (s2.items.getD (k % M.n) ⟨0, (0, 0), (0, 0)⟩).point
    rw [getD_point_congr _ _ h1, getD_point_congr _ _ h2]

/-- Claim C8 witness: the theorem applied to two concrete singleton sets whose
items differ only in direction. -/
theorem c8_from_two_sets_entries_witness :
    ∃ M : SquareDistanceMatrix,
      from_two_sets ⟨[⟨0, (0, 0), (0, 0)⟩]⟩ ⟨[⟨0, (1, 0), (0, 0)⟩]⟩ = Except.ok M ∧
      (M.distances.getD (0 * M.n + 0) 0 =
        pointDistanceTo (([⟨0, (0, 0), (0, 0)⟩] : List MatchItem).getD 0
            ⟨0, (0, 0), (0, 0)⟩).point
          (([⟨0, (1, 0), (0, 0)⟩] : List MatchItem).getD 0 ⟨0, (0, 0), (0, 0)⟩).point ∧
        M.distances = M.distances) :=
  ⟨_, rfl,
    c8_from_two_sets_entries ⟨[⟨0, (0, 0), (0, 0)⟩]⟩ ⟨[⟨0, (1, 0), (0, 0)⟩]⟩
      ⟨[⟨0, (0, 0), (0, 1)⟩]⟩ ⟨[⟨0, (1, 0), (2, 0)⟩]⟩ _ _ rfl rfl rfl rfl 0 0
      (by decide) (by decide)⟩

/-! ### Claim C7 -/

theorem from_hungarian_result_map_some (sigma : List Nat) :
    from_hungarian_result (sigma.map some) =
      Except.ok ⟨(List.range sigma.length).zip sigma⟩ := by
  unfold from_hungarian_result
  rw [if_pos (by simp)]
  have : (sigma.map some).enum.map (fun p => (p.1, p.2.getD 0)) =
      (List.range sigma.length).zip sigma := by
    rw [List.enum_eq_zip_range, List.length_map, List.zip_map_right, List.map_map]
    exact List.map_id _
  rw [this]

/-- Claim C7: `into_matching` on a matrix built from two equal-size point
sets returns a `Matching` of exactly `n` pairs whose first components are
exactly `0..n` and whose second components are a permutation of `0..n` (a
bijection), and whose total cost over the integer cost matrix obtained by
truncating each distance downward is minimal over all such bijections. -/
theorem c7_into_matching_minimal_bijection (s1 s2 : MatchItemSet)
    (M : SquareDistanceMatrix) (hM : from_two_sets s1 s2 = Except.ok M) :
    ∃ mch : Matching, into_matching M = Except.ok mch ∧
      mch.index_pairs.length = M.n ∧
      mch.index_pairs.map Prod.fst = List.range M.n ∧
      (mch.index_pairs.map Prod.snd).Perm (List.range M.n) ∧
      ∀ other : List Nat, other.Perm (List.range M.n) →
        assignCost (M.distances.map (fun d => ⌊d⌋₊)) M.n (mch.index_pairs.map Prod.snd) ≤
          assignCost (M.distances.map (fun d => ⌊d⌋₊)) M.n other := by
  cases hmin : minByKeyFirst (assignCost (M.distances.map (fun d => ⌊d⌋₊)) M.n)
      (List.range M.n).permutations with
  | none =>
    exact absurd (List.mem_permutations.mpr (List.Perm.refl (List.range M.n)))
      (by rw [(minByKeyFirst_eq_none _ _).mp hmin]; simp)
  | some sigma =>
    obtain ⟨hmem, hmins⟩ := minByKeyFirst_spec _ _ _ hmin
    have hperm : sigma.Perm (List.range M.n) := List.mem_permutations.mp hmem
    have hlen : sigma.length = M.n := by simpa using hperm.length_eq
    have hcalc : into_matching M = Except.ok ⟨(List.range sigma.length).zip sigma⟩ := by
      unfold into_matching hungarianMinimize
      rw [hmin]
      exact from_hungarian_result_map_some sigma
    refine ⟨_, hcalc, ?_, ?_, ?_, ?_⟩
    · simp [List.length_zip, hlen]
    · rw [List.map_fst_zip _ _ (by simp [hlen]), hlen]
    · rw [List.map_snd_zip _ _ (by simp [hlen])]
      exact hperm
    · intro other hother
      rw [List.map_snd_zip _ _ (by simp [hlen])]
      exact hmins other (List.mem_permutations.mpr hother)

/-- Claim C7 witness: the theorem applied to two concrete singleton sets. -/
theorem c7_into_matching_minimal_bijection_witness :
    ∃ M : SquareDistanceMatrix,
      from_two_sets ⟨[⟨0, (0, 0), (0, 0)⟩]⟩ ⟨[⟨0, (3, 4), (0, 0)⟩]⟩ = Except.ok M ∧
      ∃ mch : Matching, into_matching M = Except.ok mch ∧
        mch.index_pairs.length = M.n ∧
        mch.index_pairs.map Prod.fst = List.range M.n ∧
        (mch.index_pairs.map Prod.snd).Perm (List.range M.n) ∧
        ∀ other : List Nat, other.Perm (List.range M.n) →
          assignCost (M.distances.map (fun d => ⌊d⌋₊)) M.n (mch.index_pairs.map Prod.snd) ≤
            assignCost (M.distances.map (fun d => ⌊d⌋₊)) M.n other :=
  ⟨_, rfl, c7_into_matching_minimal_bijection ⟨[⟨0, (0, 0), (0, 0)⟩]⟩
    ⟨[⟨0, (3, 4), (0, 0)⟩]⟩ _ rfl⟩

/-! ### Claim C5 : matrix cell lemmas -/

theorem inBoundsOf_iff (m : FilledHoleMatrix) (p : Int × Int) :
    inBoundsOf m p = true ↔
      0 ≤ p.1 ∧ p.1 < (m.width : Int) ∧ 0 ≤ p.2 ∧ p.2 < (m.height : Int) := by
  simp [inBoundsOf, Bool.and_eq_true, decide_eq_true_iff, and_assoc]

theorem idx_lt_of_inBounds (m : FilledHoleMatrix) (p : Int × Int)
    (h : inBoundsOf m p = true) :
    (toUsizePoint p).2 * m.width + (toUsizePoint p).1 < m.elems.length := by
  obtain ⟨h1, h2, h3, h4⟩ := (inBoundsOf_iff m p).mp h
  rw [m.hlen]
  have hx : p.1.toNat < m.width := by omega
  have hy : p.2.toNat < m.height := by omega
  calc (toUsizePoint p).2 * m.width + (toUsizePoint p).1
      < p.2.toNat * m.width + m.width := by simp only [toUsizePoint]; omega
    _ = (p.2.toNat + 1) * m.width := by ring
    _ ≤ m.height * m.width := Nat.mul_le_mul_right _ (by omega)
    _ = m.width * m.height := Nat.mul_comm _ _

theorem idx_inj (w x1 y1 x2 y2 : Nat) (h1 : x1 < w) (h2 : x2 < w)
    (h : y1 * w + x1 = y2 * w + x2) : x1 = x2 ∧ y1 = y2 := by
  rcases Nat.lt_trichotomy y1 y2 with hy | hy | hy
  · exfalso
    have hle : (y1 + 1) * w ≤ y2 * w := Nat.mul_le_mul_right _ hy
    have heq : (y1 + 1) * w = y1 * w + w := by ring
    rw [heq] at hle
    omega
  · subst hy
    omega
  · exfalso
    have hle : (y2 + 1) * w ≤ y1 * w := Nat.mul_le_mul_right _ hy
    have heq : (y2 + 1) * w = y2 * w + w := by ring
    rw [heq] at hle
    omega

theorem point_eq_of_idx_eq (m : FilledHoleMatrix) (p q : Int × Int)
    (hp : inBoundsOf m p = true) (hq : inBoundsOf m q = true)
    (h : (toUsizePoint p).2 * m.width + (toUsizePoint p).1 =
      (toUsizePoint q).2 * m.width + (toUsizePoint q).1) : p = q := by
  obtain ⟨hp1, hp2, hp3, hp4⟩ := (inBoundsOf_iff m p).mp hp
  obtain ⟨hq1, hq2, hq3, hq4⟩ := (inBoundsOf_iff m q).mp hq
  obtain ⟨hx, hy⟩ := idx_inj m.width _ _ _ _ (by simp only [toUsizePoint]; omega)
    (by simp only [toUsizePoint]; omega) h
  simp only [toUsizePoint] at hx hy
  have : p.1 = q.1 := by omega
  have : p.2 = q.2 := by omega
  exact Prod.ext (by omega) (by omega)

theorem get_set_eq (m : FilledHoleMatrix) (pu : Nat × Nat) (v : FilledHoleElement)
    (h : pu.2 * m.width + pu.1 < m.elems.length) : (m.set pu v).get pu = v := by
  simp only [FilledHoleMatrix.get, FilledHoleMatrix.set, List.getD_eq_getElem?_getD,
    List.getElem?_set]
  simp [h]

theorem get_set_ne (m : FilledHoleMatrix) (pu u : Nat × Nat) (v : FilledHoleElement)
    (h : u.2 * m.width + u.1 ≠ pu.2 * m.width + pu.1) : (m.set pu v).get u = m.get u := by
  simp only [FilledHoleMatrix.get, FilledHoleMatrix.set, List.getD_eq_getElem?_getD]
  rw [List.getElem?_set_ne (fun hc => h (hc.symm))]

theorem get_set_idx_eq (m : FilledHoleMatrix) (pu u : Nat × Nat) (v : FilledHoleElement)
    (hidx : u.2 * m.width + u.1 = pu.2 * m.width + pu.1)
    (hlt : pu.2 * m.width + pu.1 < m.elems.length) : (m.set pu v).get u = v := by
  simp only [FilledHoleMatrix.get, FilledHoleMatrix.set, List.getD_eq_getElem?_getD,
    List.getElem?_set, hidx]
  simp [hlt]

theorem new_get (w h : Nat) (p : Nat × Nat) :
    (FilledHoleMatrix.new w h).get p = FilledHoleElement.Blank := by
  simp only [FilledHoleMatrix.new, FilledHoleMatrix.get, List.getD_eq_getElem?_getD]
  rcases Decidable.em (p.2 * w + p.1 < w * h) with hlt | hge
  · rw [List.getElem?_eq_getElem (by simpa using hlt), List.getElem_replicate]
    rfl
  · rw [List.getElem?_eq_none (by simpa using Nat.le_of_not_lt hge)]
    rfl

/-! ### Claim C5 : reachability through Blank cells -/

/-- Reachability (4-connected) from `q` through in-bounds `Blank` cells of
`m` (the seed cell itself included). -/
inductive Reach (m : FilledHoleMatrix) : (Int × Int) → (Int × Int) → Prop
  | refl (p : Int × Int) (hin : inBoundsOf m p = true)
      (hb : m.get (toUsizePoint p) = FilledHoleElement.Blank) : Reach m p p
  | step (q r s : Int × Int) (h : Reach m q r) (hadj : s ∈ neighborsOf r)
      (hin : inBoundsOf m s = true)
      (hb : m.get (toUsizePoint s) = FilledHoleElement.Blank) : Reach m q s

theorem Reach.start_inB (m : FilledHoleMatrix) (q u : Int × Int) (h : Reach m q u) :
    inBoundsOf m q = true ∧ m.get (toUsizePoint q) = FilledHoleElement.Blank := by
  induction h with
  | refl hin hb => exact ⟨hin, hb⟩
  | step r s h hadj hin hb ih => exact ih

theorem Reach.target_inB (m : FilledHoleMatrix) (q u : Int × Int) (h : Reach m q u) :
    inBoundsOf m u = true ∧ m.get (toUsizePoint u) = FilledHoleElement.Blank := by
  cases h with
  | refl hin hb => exact ⟨hin, hb⟩
  | step r s h hadj hin hb => exact ⟨hin, hb⟩

theorem Reach.prepend (m : FilledHoleMatrix) (p q u : Int × Int)
    (hin : inBoundsOf m p = true) (hb : m.get (toUsizePoint p) = FilledHoleElement.Blank)
    (hadj : q ∈ neighborsOf p) (h : Reach m q u) : Reach m p u := by
  induction h with
  | refl hinq hbq => exact Reach.step p p q (Reach.refl p hin hb) hadj hinq hbq
  | step r s h hadjs hins hbs ih => exact Reach.step p r s ih hadjs hins hbs

theorem Reach.trans (m : FilledHoleMatrix) (q r s : Int × Int)
    (h1 : Reach m q r) (h2 : Reach m r s) : Reach m q s := by
  induction h2 with
  | refl hin hb => exact h1
  | step u s h hadj hin hb ih => exact Reach.step q u s ih hadj hin hb

theorem inBoundsOf_set (m : FilledHoleMatrix) (pu : Nat × Nat) (v : FilledHoleElement)
    (p : Int × Int) : inBoundsOf (m.set pu v) p = inBoundsOf m p := rfl

/-- Reachability in the grid after marking the popped cell `Texture`
implies reachability in the grid before. -/
theorem Reach.of_set_texture (m : FilledHoleMatrix) (p : Int × Int)
    (hinp : inBoundsOf m p = true) (q u : Int × Int)
    (h : Reach (m.set (toUsizePoint p) FilledHoleElement.Texture) q u) : Reach m q u := by
  have hlt := idx_lt_of_inBounds m p hinp
  induction h with
  | refl hin hb =>
    by_cases hc : (toUsizePoint q).2 * m.width + (toUsizePoint q).1 =
        (toUsizePoint p).2 * m.width + (toUsizePoint p).1
    · rw [get_set_idx_eq m _ _ _ hc hlt] at hb
      exact FilledHoleElement.noConfusion hb
    · rw [get_set_ne m _ _ _ hc] at hb
      exact Reach.refl q hin hb
  | step r s h hadj hin hb ih =>
    by_cases hc : (toUsizePoint s).2 * m.width + (toUsizePoint s).1 =
        (toUsizePoint p).2 * m.width + (toUsizePoint p).1
    · rw [get_set_idx_eq m _ _ _ hc hlt] at hb
      exact FilledHoleElement.noConfusion hb
    · rw [get_set_ne m _ _ _ hc] at hb
      exact Reach.step q r s ih hadj hin hb

/-! ### Claim C5 : flood fill loop lemmas -/

theorem floodLoop_nil (m : FilledHoleMatrix) : floodLoop m [] = m := by
  rw [floodLoop]

theorem floodLoop_oob (m : FilledHoleMatrix) (p : Int × Int) (rest : List (Int × Int))
    (h : inBoundsOf m p = false) : floodLoop m (p :: rest) = floodLoop m rest := by
  rw [floodLoop]
  simp [h]

theorem floodLoop_nonblank (m : FilledHoleMatrix) (p : Int × Int)
    (rest : List (Int × Int)) (h1 : inBoundsOf m p = true)
    (h2 : m.get (toUsizePoint p) ≠ FilledHoleElement.Blank) :
    floodLoop m (p :: rest) = floodLoop m rest := by
  rw [floodLoop]
  simp [h1, h2]

theorem floodLoop_fill (m : FilledHoleMatrix) (p : Int × Int)
    (rest : List (Int × Int)) (h1 : inBoundsOf m p = true)
    (h2 : m.get (toUsizePoint p) = FilledHoleElement.Blank) :
    floodLoop m (p :: rest) =
      floodLoop (m.set (toUsizePoint p) FilledHoleElement.Texture)
        ((neighborsOf p).reverse ++ rest) := by
  rw [floodLoop]
  simp [h1, h2]

theorem floodLoop_dims (m : FilledHoleMatrix) (stack : List (Int × Int)) :
    (floodLoop m stack).width = m.width ∧ (floodLoop m stack).height = m.height := by
  induction m, stack using floodLoop.induct with
  | case1 m => rw [floodLoop_nil]; exact ⟨rfl, rfl⟩
  | case2 m p rest h ih => rw [floodLoop_oob _ _ _ h]; exact ih
  | case3 m p rest h1 h2 ih =>
    have h1' : inBoundsOf m p = true := by revert h1; cases inBoundsOf m p <;> simp
    rw [floodLoop_nonblank _ _ _ h1' h2]; exact ih
  | case4 m p rest h1 h2 ih =>
    have h1' : inBoundsOf m p = true := by revert h1; cases inBoundsOf m p <;> simp
    rw [floodLoop_fill _ _ _ h1' (not_not.mp h2)]; exact ih

/-- Soundness of the flood loop: a changed cell was `Blank`, is now
`Texture`, and is reachable from some stack entry. -/
theorem floodLoop_sound (m : FilledHoleMatrix) (stack : List (Int × Int)) :
    ∀ u : Int × Int, inBoundsOf m u = true →
      (floodLoop m stack).get (toUsizePoint u) ≠ m.get (toUsizePoint u) →
      m.get (toUsizePoint u) = FilledHoleElement.Blank ∧
      (floodLoop m stack).get (toUsizePoint u) = FilledHoleElement.Texture ∧
      ∃ q ∈ stack, Reach m q u := by
  induction m, stack using floodLoop.induct with
  | case1 m =>
    intro u _ hne
    rw [floodLoop_nil] at hne
    exact absurd rfl hne
  | case2 m p rest h ih =>
    intro u hu hne
    rw [floodLoop_oob _ _ _ h] at hne
    obtain ⟨hb, ht, q, hq, hr⟩ := ih u hu hne
    exact ⟨hb, by rw [floodLoop_oob _ _ _ h]; exact ht, q, List.mem_cons_of_mem _ hq, hr⟩
  | case3 m p rest h1 h2 ih =>
    have h1' : inBoundsOf m p = true := by revert h1; cases inBoundsOf m p <;> simp
    intro u hu hne
    rw [floodLoop_nonblank _ _ _ h1' h2] at hne
    obtain ⟨hb, ht, q, hq, hr⟩ := ih u hu hne
    exact ⟨hb, by rw [floodLoop_nonblank _ _ _ h1' h2]; exact ht, q,
      List.mem_cons_of_mem _ hq, hr⟩
  | case4 m p rest h1 h2 ih =>
    have h1' : inBoundsOf m p = true := by revert h1; cases inBoundsOf m p <;> simp
    have h2' : m.get (toUsizePoint p) = FilledHoleElement.Blank := not_not.mp h2
    have hlt := idx_lt_of_inBounds m p h1'
    intro u hu hne
    rw [floodLoop_fill _ _ _ h1' h2'] at hne ⊢
    by_cases hc : (toUsizePoint u).2 * m.width + (toUsizePoint u).1 =
        (toUsizePoint p).2 * m.width + (toUsizePoint p).1
    · have hup : u = p := point_eq_of_idx_eq m u p hu h1' hc
      subst hup
      have hTm' : (m.set (toUsizePoint u) FilledHoleElement.Texture).get (toUsizePoint u) =
          FilledHoleElement.Texture := get_set_eq m _ _ hlt
      refine ⟨h2', ?_, u, List.mem_cons_self _ _, Reach.refl u h1' h2'⟩
      by_cases hch : (floodLoop (m.set (toUsizePoint u) FilledHoleElement.Texture)
          ((neighborsOf u).reverse ++ rest)).get (toUsizePoint u) =
          (m.set (toUsizePoint u) FilledHoleElement.Texture).get (toUsizePoint u)
      · rw [hch, hTm']
      · obtain ⟨hb', _, _⟩ := ih u hu hch
        rw [hTm'] at hb'
        exact FilledHoleElement.noConfusion hb'
    · have hmu : (m.set (toUsizePoint p) FilledHoleElement.Texture).get (toUsizePoint u) =
          m.get (toUsizePoint u) := get_set_ne m _ _ _ hc
      have hne' : (floodLoop (m.set (toUsizePoint p) FilledHoleElement.Texture)
          ((neighborsOf p).reverse ++ rest)).get (toUsizePoint u) ≠
          (m.set (toUsizePoint p) FilledHoleElement.Texture).get (toUsizePoint u) := by
        rw [hmu]; exact hne
      obtain ⟨hb', ht', q, hq, hr⟩ := ih u hu hne'
      refine ⟨hmu ▸ hb', ht', ?_⟩
      rcases List.mem_append.mp hq with hqn | hqr
      · have hqn' : q ∈ neighborsOf p := List.mem_reverse.mp hqn
        have hrm : Reach m q u := Reach.of_set_texture m p h1' q u hr
        exact ⟨p, List.mem_cons_self _ _, Reach.prepend m p q u h1' h2' hqn' hrm⟩
      · exact ⟨q, List.mem_cons_of_mem _ hqr, Reach.of_set_texture m p h1' q u hr⟩

/-- After the popped Blank cell `p` is marked `Texture`, any cell reachable
from a stack entry either is `p` itself, or is reachable in the updated
grid from the same entry, or is reachable from one of `p`'s neighbours. -/
theorem reach_step_set (m : FilledHoleMatrix) (p : Int × Int)
    (hinp : inBoundsOf m p = true)
    (hpb : m.get (toUsizePoint p) = FilledHoleElement.Blank) (q u : Int × Int)
    (h : Reach m q u) :
    u = p ∨ (q ≠ p ∧ Reach (m.set (toUsizePoint p) FilledHoleElement.Texture) q u) ∨
      ∃ s ∈ neighborsOf p, Reach (m.set (toUsizePoint p) FilledHoleElement.Texture) s u := by
  induction h with
  | refl hin hb =>
    by_cases hqp : q = p
    · exact Or.inl hqp
    · have hc : (toUsizePoint q).2 * m.width + (toUsizePoint q).1 ≠
          (toUsizePoint p).2 * m.width + (toUsizePoint p).1 :=
        fun hc => hqp (point_eq_of_idx_eq m q p hin hinp hc)
      refine Or.inr (Or.inl ⟨hqp, Reach.refl q hin ?_⟩)
      rw [get_set_ne m _ _ _ hc]
      exact hb
  | step r s h hadj hin hb ih =>
    by_cases hsp : s = p
    · exact Or.inl hsp
    · have hc : (toUsizePoint s).2 * m.width + (toUsizePoint s).1 ≠
          (toUsizePoint p).2 * m.width + (toUsizePoint p).1 :=
        fun hc => hsp (point_eq_of_idx_eq m s p hin hinp hc)
      have hbm' : (m.set (toUsizePoint p) FilledHoleElement.Texture).get (toUsizePoint s) =
          FilledHoleElement.Blank := by
        rw [get_set_ne m _ _ _ hc]; exact hb
      rcases ih with hrp | ⟨hqp, hr'⟩ | ⟨t, ht, hr'⟩
      · exact Or.inr (Or.inr ⟨s, hrp ▸ hadj, Reach.refl s hin hbm'⟩)
      · exact Or.inr (Or.inl ⟨hqp, Reach.step q r s hr' hadj hin hbm'⟩)
      · exact Or.inr (Or.inr ⟨t, ht, Reach.step t r s hr' hadj hin hbm'⟩)

/-- Completeness of the flood loop: every in-bounds Blank cell reachable
from a stack entry ends up `Texture`. -/
theorem floodLoop_complete (m : FilledHoleMatrix) (stack : List (Int × Int)) :
    ∀ u : Int × Int, inBoundsOf m u = true →
      m.get (toUsizePoint u) = FilledHoleElement.Blank →
      (∃ q ∈ stack, Reach m q u) →
      (floodLoop m stack).get (toUsizePoint u) = FilledHoleElement.Texture := by
  induction m, stack using floodLoop.induct with
  | case1 m =>
    intro u _ _ h
    obtain ⟨q, hq, _⟩ := h
    exact absurd hq (List.not_mem_nil q)
  | case2 m p rest h ih =>
    intro u hu hb hex
    obtain ⟨q, hq, hr⟩ := hex
    rw [floodLoop_oob _ _ _ h]
    rcases List.mem_cons.mp hq with rfl | hq'
    · obtain ⟨hinq, _⟩ := Reach.start_inB m _ _ hr
      rw [h] at hinq
      exact Bool.noConfusion hinq
    · exact ih u hu hb ⟨q, hq', hr⟩
  | case3 m p rest h1 h2 ih =>
    have h1' : inBoundsOf m p = true := by revert h1; cases inBoundsOf m p <;> simp
    intro u hu hb hex
    obtain ⟨q, hq, hr⟩ := hex
    rw [floodLoop_nonblank _ _ _ h1' h2]
    rcases List.mem_cons.mp hq with rfl | hq'
    · obtain ⟨_, hbq⟩ := Reach.start_inB m _ _ hr
      exact absurd hbq h2
    · exact ih u hu hb ⟨q, hq', hr⟩
  | case4 m p rest h1 h2 ih =>
    have h1' : inBoundsOf m p = true := by revert h1; cases inBoundsOf m p <;> simp
    have h2' : m.get (toUsizePoint p) = FilledHoleElement.Blank := not_not.mp h2
    have hlt := idx_lt_of_inBounds m p h1'
    intro u hu hb hex
    obtain ⟨q, hq, hr⟩ := hex
    rw [floodLoop_fill _ _ _ h1' h2']
    by_cases hc : (toUsizePoint u).2 * m.width + (toUsizePoint u).1 =
        (toUsizePoint p).2 * m.width + (toUsizePoint p).1
    · have hup : u = p := point_eq_of_idx_eq m u p hu h1' hc
      subst hup
      have hTm' : (m.set (toUsizePoint u) FilledHoleElement.Texture).get (toUsizePoint u) =
          FilledHoleElement.Texture := get_set_eq m _ _ hlt
      by_cases hch : (floodLoop (m.set (toUsizePoint u) FilledHoleElement.Texture)
          ((neighborsOf u).reverse ++ rest)).get (toUsizePoint u) =
          (m.set (toUsizePoint u) FilledHoleElement.Texture).get (toUsizePoint u)
      · rw [hch, hTm']
      · obtain ⟨_, ht', _⟩ := floodLoop_sound
          (m.set (toUsizePoint u) FilledHoleElement.Texture)
          ((neighborsOf u).reverse ++ rest) u hu hch
        exact ht'
    · have hup : u ≠ p := fun he => hc (by rw [he])
      have hbm' : (m.set (toUsizePoint p) FilledHoleElement.Texture).get (toUsizePoint u) =
          FilledHoleElement.Blank := by
        rw [get_set_ne m _ _ _ hc]; exact hb
      rcases reach_step_set m p h1' h2' q u hr with hupp | ⟨hqp, hr'⟩ | ⟨s, hs, hr'⟩
      · exact absurd hupp hup
      · have hqr : q ∈ rest := by
          rcases List.mem_cons.mp hq with h | h
          · exact absurd h hqp
          · exact h
        exact ih u hu hbm' ⟨q, List.mem_append.mpr (Or.inr hqr), hr'⟩
      · exact ih u hu hbm' ⟨s, List.mem_append.mpr (Or.inl (List.mem_reverse.mpr hs)), hr'⟩

/-! ### Claim C5 : connectivity of an all-Blank grid -/

theorem reach_horiz (m : FilledHoleMatrix)
    (hall : ∀ u : Int × Int, inBoundsOf m u = true →
      m.get (toUsizePoint u) = FilledHoleElement.Blank) :
    ∀ (k : Nat) (a c y : Int), (c - a).natAbs = k →
      inBoundsOf m (a, y) = true → inBoundsOf m (c, y) = true →
      Reach m (a, y) (c, y) := by
  intro k
  induction k with
  | zero =>
    intro a c y hk ha hc
    have hac : c = a := by omega
    subst hac
    exact Reach.refl _ ha (hall _ ha)
  | succ n ih =>
    intro a c y hk ha hc
    rcases lt_trichotomy a c with h | h | h
    · obtain ⟨ha1, ha2, ha3, ha4⟩ := (inBoundsOf_iff _ _).mp ha
      obtain ⟨hc1, hc2, hc3, hc4⟩ := (inBoundsOf_iff _ _).mp hc
      have h1 : inBoundsOf m (c - 1, y) = true :=
        (inBoundsOf_iff _ _).mpr ⟨by omega, by omega, by omega, by omega⟩
      have hr1 : Reach m (a, y) (c - 1, y) := ih a (c - 1) y (by omega) ha h1
      refine Reach.step _ _ _ hr1 ?_ hc (hall _ hc)
      simp only [neighborsOf, List.mem_cons, Prod.mk.injEq, List.not_mem_nil, or_false]
      exact Or.inl ⟨by omega, trivial⟩
    · omega
    · obtain ⟨ha1, ha2, ha3, ha4⟩ := (inBoundsOf_iff _ _).mp ha
      obtain ⟨hc1, hc2, hc3, hc4⟩ := (inBoundsOf_iff _ _).mp hc
      have h1 : inBoundsOf m (c + 1, y) = true :=
        (inBoundsOf_iff _ _).mpr ⟨by omega, by omega, by omega, by omega⟩
      have hr1 : Reach m (a, y) (c + 1, y) := ih a (c + 1) y (by omega) ha h1
      refine Reach.step _ _ _ hr1 ?_ hc (hall _ hc)
      simp only [neighborsOf, List.mem_cons, Prod.mk.injEq, List.not_mem_nil, or_false]
      exact Or.inr (Or.inr (Or.inl ⟨by omega, trivial⟩))

theorem reach_vert (m : FilledHoleMatrix)
    (hall : ∀ u : Int × Int, inBoundsOf m u = true →
      m.get (toUsizePoint u) = FilledHoleElement.Blank) :
    ∀ (k : Nat) (x b d : Int), (d - b).natAbs = k →
      inBoundsOf m (x, b) = true → inBoundsOf m (x, d) = true →
      Reach m (x, b) (x, d) := by
  intro k
  induction k with
  | zero =>
    intro x b d hk hb hd
    have hbd : d = b := by omega
    subst hbd
    exact Reach.refl _ hb (hall _ hb)
  | succ n ih =>
    intro x b d hk hb hd
    rcases lt_trichotomy b d with h | h | h
    · obtain ⟨hb1, hb2, hb3, hb4⟩ := (inBoundsOf_iff _ _).mp hb
      obtain ⟨hd1, hd2, hd3, hd4⟩ := (inBoundsOf_iff _ _).mp hd
      have h1 : inBoundsOf m (x, d - 1) = true :=
        (inBoundsOf_iff _ _).mpr ⟨by omega, by omega, by omega, by omega⟩
      have hr1 : Reach m (x, b) (x, d - 1) := ih x b (d - 1) (by omega) hb h1
      refine Reach.step _ _ _ hr1 ?_ hd (hall _ hd)
      simp only [neighborsOf, List.mem_cons, Prod.mk.injEq, List.not_mem_nil, or_false]
      exact Or.inr (Or.inl ⟨trivial, by omega⟩)
    · omega
    · obtain ⟨hb1, hb2, hb3, hb4⟩ := (inBoundsOf_iff _ _).mp hb
      obtain ⟨hd1, hd2, hd3, hd4⟩ := (inBoundsOf_iff _ _).mp hd
      have h1 : inBoundsOf m (x, d + 1) = true :=
        (inBoundsOf_iff _ _).mpr ⟨by omega, by omega, by omega, by omega⟩
      have hr1 : Reach m (x, b) (x, d + 1) := ih x b (d + 1) (by omega) hb h1
      refine Reach.step _ _ _ hr1 ?_ hd (hall _ hd)
      simp only [neighborsOf, List.mem_cons, Prod.mk.injEq, List.not_mem_nil, or_false]
      exact Or.inr (Or.inr (Or.inr ⟨trivial, by omega⟩))

theorem reach_all_blank (m : FilledHoleMatrix)
    (hall : ∀ u : Int × Int, inBoundsOf m u = true →
      m.get (toUsizePoint u) = FilledHoleElement.Blank)
    (seed u : Int × Int) (hs : inBoundsOf m seed = true)
    (hu : inBoundsOf m u = true) : Reach m seed u := by
  obtain ⟨hs1, hs2, hs3, hs4⟩ := (inBoundsOf_iff _ _).mp hs
  obtain ⟨hu1, hu2, hu3, hu4⟩ := (inBoundsOf_iff _ _).mp hu
  have hmid : inBoundsOf m (u.1, seed.2) = true :=
    (inBoundsOf_iff _ _).mpr ⟨hu1, hu2, hs3, hs4⟩
  have h1 : Reach m (seed.1, seed.2) (u.1, seed.2) :=
    reach_horiz m hall (u.1 - seed.1).natAbs seed.1 u.1 seed.2 rfl
      (by rw [show ((seed.1, seed.2) : Int × Int) = seed from rfl]; exact hs) hmid
  have h2 : Reach m (u.1, seed.2) (u.1, u.2) :=
    reach_vert m hall (u.2 - seed.2).natAbs u.1 seed.2 u.2 rfl hmid
      (by rw [show ((u.1, u.2) : Int × Int) = u from rfl]; exact hu)
  exact Reach.trans m seed (u.1, seed.2) u h1 h2

/-! ### Claim C5 -/

/-- Claim C5: `fill_hole_iterative` marks as `Texture` exactly the
4-connected `Blank` region containing the seed and leaves every other cell
unchanged; a seed that is out of bounds or not `Blank` leaves the grid
entirely unchanged; and on an all-`Blank` grid an in-bounds seed turns
every cell `Texture`. -/
theorem c5_fill_hole_iterative_region (m : FilledHoleMatrix) (seed : Int × Int) :
    (∀ u : Int × Int, inBoundsOf m u = true →
      (Reach m seed u →
        (fill_hole_iterative m seed).get (toUsizePoint u) = FilledHoleElement.Texture) ∧
      (¬ Reach m seed u →
        (fill_hole_iterative m seed).get (toUsizePoint u) = m.get (toUsizePoint u))) ∧
    ((inBoundsOf m seed = false ∨ m.get (toUsizePoint seed) ≠ FilledHoleElement.Blank) →
      fill_hole_iterative m seed = m) ∧
    ((∀ u : Int × Int, inBoundsOf m u = true →
        m.get (toUsizePoint u) = FilledHoleElement.Blank) →
      inBoundsOf m seed = true →
      ∀ u : Int × Int, inBoundsOf m u = true →
        (fill_hole_iterative m seed).get (toUsizePoint u) = FilledHoleElement.Texture) := by
  have hpos : ∀ u : Int × Int, inBoundsOf m u = true → Reach m seed u →
      (fill_hole_iterative m seed).get (toUsizePoint u) = FilledHoleElement.Texture := by
    intro u hu hr
    exact floodLoop_complete m [seed] u hu (Reach.target_inB m seed u hr).2
      ⟨seed, List.mem_singleton.mpr rfl, hr⟩
  refine ⟨?_, ?_, ?_⟩
  · intro u hu
    refine ⟨hpos u hu, ?_⟩
    intro hnr
    by_cases hch : (fill_hole_iterative m seed).get (toUsizePoint u) = m.get (toUsizePoint u)
    · exact hch
    · obtain ⟨_, _, q, hq, hr⟩ := floodLoop_sound m [seed] u hu hch
      rw [List.mem_singleton.mp hq] at hr
      exact absurd hr hnr
  · intro h
    by_cases hF : inBoundsOf m seed = false
    · rw [fill_hole_iterative, floodLoop_oob _ _ _ hF, floodLoop_nil]
    · have h1' : inBoundsOf m seed = true := by
        revert hF; cases inBoundsOf m seed <;> simp
      have hnb : m.get (toUsizePoint seed) ≠ FilledHoleElement.Blank := by
        rcases h with h | h
        · rw [h1'] at h; exact Bool.noConfusion h
        · exact h
      rw [fill_hole_iterative, floodLoop_nonblank _ _ _ h1' hnb, floodLoop_nil]
  · intro hall hs u hu
    exact hpos u hu (reach_all_blank m hall seed u hs hu)

/-- Claim C5 witness: on the all-Blank `2 × 2` grid with seed `(0,0)`, cell
`(1,1)` ends up `Texture`. -/
theorem c5_fill_hole_iterative_region_witness :
    ((∀ u : Int × Int, inBoundsOf (FilledHoleMatrix.new 2 2) u = true →
        (FilledHoleMatrix.new 2 2).get (toUsizePoint u) = FilledHoleElement.Blank) ∧
      inBoundsOf (FilledHoleMatrix.new 2 2) (0, 0) = true ∧
      inBoundsOf (FilledHoleMatrix.new 2 2) (1, 1) = true) ∧
    (fill_hole_iterative (FilledHoleMatrix.new 2 2) (0, 0)).get (toUsizePoint (1, 1)) =
      FilledHoleElement.Texture :=
  ⟨⟨fun u _ => new_get 2 2 _, by decide, by decide⟩,
    (c5_fill_hole_iterative_region (FilledHoleMatrix.new 2 2) (0, 0)).2.2
      (fun u _ => new_get 2 2 _) (by decide) (1, 1) (by decide)⟩

/-! ### Claim C6 : write-discipline relations -/

/-- Between two grids: every cell is unchanged or was written `Structure`.
This is the only write the rasterization phase performs. -/
def structWrites (a b : FilledHoleMatrix) : Prop :=
  ∀ idx : Nat,
    b.elems.getD idx FilledHoleElement.Blank = a.elems.getD idx FilledHoleElement.Blank ∨
    b.elems.getD idx FilledHoleElement.Blank = FilledHoleElement.Structure

/-- Between two grids: every cell is unchanged or transitioned from `Blank`
to `Texture`.  This is the only write the flood-fill phase performs. -/
def textureWrites (a b : FilledHoleMatrix) : Prop :=
  ∀ idx : Nat,
    b.elems.getD idx FilledHoleElement.Blank = a.elems.getD idx FilledHoleElement.Blank ∨
    (a.elems.getD idx FilledHoleElement.Blank = FilledHoleElement.Blank ∧
      b.elems.getD idx FilledHoleElement.Blank = FilledHoleElement.Texture)

theorem structWrites_refl (a : FilledHoleMatrix) : structWrites a a :=
  fun _ => Or.inl rfl

theorem structWrites_trans (a b c : FilledHoleMatrix)
    (h1 : structWrites a b) (h2 : structWrites b c) : structWrites a c := by
  intro idx
  rcases h2 idx with h | h
  · rw [h]; exact h1 idx
  · exact Or.inr h

theorem textureWrites_refl (a : FilledHoleMatrix) : textureWrites a a :=
  fun _ => Or.inl rfl

theorem textureWrites_trans (a b c : FilledHoleMatrix)
    (h1 : textureWrites a b) (h2 : textureWrites b c) : textureWrites a c := by
  intro idx
  rcases h2 idx with h | ⟨hb, hc⟩
  · rw [h]; exact h1 idx
  · rcases h1 idx with h' | ⟨ha, hb'⟩
    · exact Or.inr ⟨h' ▸ hb, hc⟩
    · rw [hb'] at hb
      exact FilledHoleElement.noConfusion hb

theorem getD_set_cases {α : Type} (l : List α) (i : Nat) (v d : α) (idx : Nat) :
    (l.set i v).getD idx d = l.getD idx d ∨
      (idx = i ∧ i < l.length ∧ (l.set i v).getD idx d = v) := by
  by_cases hi : idx = i
  · subst hi
    by_cases hl : idx < l.length
    · right
      exact ⟨rfl, hl, by simp [List.getD_eq_getElem?_getD, List.getElem?_set, hl]⟩
    · left
      simp only [List.getD_eq_getElem?_getD, List.getElem?_set, if_pos rfl, if_neg hl]
      rw [List.getElem?_eq_none (by omega)]
      simp
  · left
    simp [List.getD_eq_getElem?_getD, List.getElem?_set_ne (fun h => hi h.symm)]

theorem structWrites_set (m : FilledHoleMatrix) (pu : Nat × Nat) :
    structWrites m (m.set pu FilledHoleElement.Structure) := by
  intro idx
  rcases getD_set_cases m.elems (pu.2 * m.width + pu.1) FilledHoleElement.Structure
      FilledHoleElement.Blank idx with h | ⟨_, _, h⟩
  · exact Or.inl h
  · exact Or.inr h

theorem structWrites_setChecked (m r : FilledHoleMatrix) (pu : Nat × Nat)
    (h : m.setChecked pu FilledHoleElement.Structure = Except.ok r) :
    structWrites m r := by
  unfold FilledHoleMatrix.setChecked at h
  by_cases hlt : (pu.2 * m.width + pu.1) % 2 ^ 64 < m.elems.length
  · rw [dif_pos hlt] at h
    have hr := Except.ok.inj h
    intro idx
    rcases getD_set_cases m.elems ((pu.2 * m.width + pu.1) % 2 ^ 64)
        FilledHoleElement.Structure FilledHoleElement.Blank idx with h' | ⟨_, _, h'⟩
    · exact Or.inl (by rw [← hr]; exact h')
    · exact Or.inr (by rw [← hr]; exact h')
  · rw [dif_neg hlt] at h
    exact Except.noConfusion h

theorem structWrites_bezier (sampler : List (ℝ × ℝ) → List (ℝ × ℝ))
    (cps : List (ℝ × ℝ)) (m : FilledHoleMatrix) :
    structWrites m (rasterize_bezier_curve sampler m cps) := by
  unfold rasterize_bezier_curve
  generalize sampler cps = samples
  induction samples generalizing m with
  | nil => exact structWrites_refl m
  | cons s rest ih =>
    rw [List.foldl_cons]
    exact structWrites_trans _ _ _ (structWrites_set m _) (ih _)

theorem foldlM_structWrites {α : Type} (g : FilledHoleMatrix → α → Except String FilledHoleMatrix)
    (hg : ∀ acc x r, g acc x = Except.ok r → structWrites acc r) (l : List α) :
    ∀ (m b : FilledHoleMatrix), l.foldlM g m = Except.ok b → structWrites m b := by
  induction l with
  | nil =>
    intro m b h
    have : m = b := Except.ok.inj h
    exact this ▸ structWrites_refl m
  | cons x rest ih =>
    intro m b h
    rw [List.foldlM_cons] at h
    cases hx : g m x with
    | error e => rw [hx] at h; exact Except.noConfusion h
    | ok r =>
      rw [hx] at h
      exact structWrites_trans _ _ _ (hg m x r hx) (ih r b h)

theorem rasterizePathElement_structWrites (sampler : List (ℝ × ℝ) → List (ℝ × ℝ))
    (origin : Int × Int) (el : CompoundPathElement) (m b : FilledHoleMatrix)
    (h : rasterizePathElement sampler origin m el = Except.ok b) : structWrites m b := by
  cases el with
  | pathI32 points =>
    exact foldlM_structWrites _ (fun acc x r hx => structWrites_setChecked acc r _ hx)
      points m b h
  | pathF64 points =>
    exact foldlM_structWrites _ (fun acc x r hx => structWrites_setChecked acc r _ hx)
      points m b h
  | spline cpss =>
    refine foldlM_structWrites _ ?_ cpss m b h
    intro acc x r hx
    by_cases hlen : x.length = 4
    · rw [if_pos hlen] at hx
      have := Except.ok.inj hx
      exact this ▸ structWrites_bezier sampler _ acc
    · rw [if_neg hlen] at hx
      exact Except.noConfusion hx

theorem rasterize_structWrites (sampler : List (ℝ × ℝ) → List (ℝ × ℝ))
    (origin : Int × Int) (curves : List CompoundPathElement) (m b : FilledHoleMatrix)
    (h : rasterize_intrapolated_curves sampler m curves origin = Except.ok b) :
    structWrites m b :=
  foldlM_structWrites _
    (fun acc x r hx => rasterizePathElement_structWrites sampler origin x acc r hx)
    curves m b h

theorem floodLoop_textureWrites (m : FilledHoleMatrix) (stack : List (Int × Int)) :
    textureWrites m (floodLoop m stack) := by
  induction m, stack using floodLoop.induct with
  | case1 m => rw [floodLoop_nil]; exact textureWrites_refl m
  | case2 m p rest h ih => rw [floodLoop_oob _ _ _ h]; exact ih
  | case3 m p rest h1 h2 ih =>
    have h1' : inBoundsOf m p = true := by revert h1; cases inBoundsOf m p <;> simp
    rw [floodLoop_nonblank _ _ _ h1' h2]; exact ih
  | case4 m p rest h1 h2 ih =>
    have h1' : inBoundsOf m p = true := by revert h1; cases inBoundsOf m p <;> simp
    have h2' : m.get (toUsizePoint p) = FilledHoleElement.Blank := not_not.mp h2
    rw [floodLoop_fill _ _ _ h1' h2']
    refine textureWrites_trans _ _ _ ?_ ih
    intro idx
    rcases getD_set_cases m.elems
        ((toUsizePoint p).2 * m.width + (toUsizePoint p).1)
        FilledHoleElement.Texture FilledHoleElement.Blank idx with h' | ⟨hidx, _, h'⟩
    · exact Or.inl h'
    · exact Or.inr ⟨hidx ▸ h2', h'⟩

theorem foldl_textureWrites {α : Type} (f : FilledHoleMatrix → α → FilledHoleMatrix)
    (hf : ∀ (m : FilledHoleMatrix) (x : α), textureWrites m (f m x)) (l : List α) :
    ∀ m : FilledHoleMatrix, textureWrites m (l.foldl f m) := by
  induction l with
  | nil => intro m; exact textureWrites_refl m
  | cons x rest ih =>
    intro m
    rw [List.foldl_cons]
    exact textureWrites_trans _ _ _ (hf m x) (ih _)

theorem fillArcSeeds_textureWrites (n : Nat) (hole_rect : BoundingRect)
    (bps : List (Int × Int)) (offset : Int × Int) (m : FilledHoleMatrix)
    (prev stop : Nat) : textureWrites m (fillArcSeeds n hole_rect bps offset m prev stop) :=
  foldl_textureWrites _ (fun m' sp => floodLoop_textureWrites m' _) _ m

theorem walkLoop_textureWrites (n : Nat) (isEp ob : Nat → Bool) (t : Nat)
    (fa : FilledHoleMatrix → Nat → Nat → FilledHoleMatrix)
    (hfa : ∀ (m : FilledHoleMatrix) (c s : Nat), textureWrites m (fa m c s)) :
    ∀ (fuel cur : Nat) (m m2 : FilledHoleMatrix),
      walkLoop n isEp ob t fa fuel cur m = some m2 → textureWrites m m2 := by
  intro fuel
  induction fuel with
  | zero => intro cur m m2 h; exact Option.noConfusion h
  | succ f ih =>
    intro cur m m2 h
    rw [walkLoop] at h
    cases harc : arcStep n isEp ob t fa cur m with
    | none => rw [harc] at h; exact Option.noConfusion h
    | some pr =>
      rw [harc] at h
      obtain ⟨m', stop⟩ := pr
      have hm' : textureWrites m m' := by
        unfold arcStep at harc
        cases hscan : scanArc n isEp ob n cur 0 0 with
        | none => rw [hscan] at harc; exact Option.noConfusion harc
        | some tri =>
          rw [hscan] at harc
          obtain ⟨stop', total, blank⟩ := tri
          have := (Prod.mk.injEq _ _ _ _).mp (Option.some.inj harc)
          rcases this with ⟨hm'eq, _⟩
          rw [← hm'eq]
          by_cases hcond : (decide (t < total) && decide (blank ≤ t)) = true
          · rw [if_pos hcond]; exact hfa m cur stop'
          · rw [if_neg hcond]; exact textureWrites_refl m
      simp only at h
      by_cases hstop : stop = 0
      · rw [if_pos hstop] at h
        exact (Option.some.inj h) ▸ hm'
      · rw [if_neg hstop] at h
        exact textureWrites_trans _ _ _ hm' (ih _ _ _ h)

theorem fill_holes_textureWrites (fuel : Nat) (m : FilledHoleMatrix)
    (image : Int × Int → Bool) (hole_rect : BoundingRect) (offset : Int × Int)
    (endpoints : List (Int × Int)) (threshold : Nat) (m2 : FilledHoleMatrix)
    (h : fill_holes fuel m image hole_rect offset endpoints threshold =
      some (Except.ok m2)) : textureWrites m m2 := by
  unfold fill_holes at h
  cases hadj : adjust_endpoints hole_rect endpoints with
  | nil =>
    rw [hadj] at h
    simp at h
  | cons e0 rest =>
    rw [hadj] at h
    simp only [Option.map_eq_some'] at h
    obtain ⟨mw, hw, hok⟩ := h
    have : mw = m2 := Except.ok.inj hok
    subst this
    exact walkLoop_textureWrites _ _ _ _ _
      (fun m' c s => fillArcSeeds_textureWrites _ _ _ _ m' c s) fuel 0 m mw hw

theorem new_getD (w h : Nat) (idx : Nat) :
    (FilledHoleMatrix.new w h).elems.getD idx FilledHoleElement.Blank =
      FilledHoleElement.Blank := by
  simp only [FilledHoleMatrix.new, List.getD_eq_getElem?_getD]
  rcases Decidable.em (idx < w * h) with hlt | hge
  · rw [List.getElem?_eq_getElem (by simpa using hlt), List.getElem_replicate]
    rfl
  · rw [List.getElem?_eq_none (by simpa using Nat.le_of_not_lt hge)]
    rfl

/-- Claim C6: over the whole fill pipeline started on the all-`Blank` grid of
`FilledHoleMatrix::new`, rasterization only performs `Blank → Structure`
transitions (after it every cell is `Blank` or `Structure`), the
boundary-walk flood filling only performs `Blank → Texture` transitions,
and a cell marked `Structure` is never changed afterwards. -/
theorem c6_pipeline_blank_structure_texture
    (sampler : List (ℝ × ℝ) → List (ℝ × ℝ)) (origin : Int × Int)
    (curves : List CompoundPathElement) (w h : Nat) (m1 : FilledHoleMatrix)
    (h1 : rasterize_intrapolated_curves sampler (FilledHoleMatrix.new w h) curves origin =
      Except.ok m1)
    (fuel : Nat) (image : Int × Int → Bool) (hole_rect : BoundingRect)
    (offset : Int × Int) (endpoints : List (Int × Int)) (threshold : Nat)
    (m2 : FilledHoleMatrix)
    (h2 : fill_holes fuel m1 image hole_rect offset endpoints threshold =
      some (Except.ok m2)) :
    (∀ idx : Nat, m1.elems.getD idx FilledHoleElement.Blank = FilledHoleElement.Blank ∨
      m1.elems.getD idx FilledHoleElement.Blank = FilledHoleElement.Structure) ∧
    (∀ idx : Nat, m2.elems.getD idx FilledHoleElement.Blank =
        m1.elems.getD idx FilledHoleElement.Blank ∨
      (m1.elems.getD idx FilledHoleElement.Blank = FilledHoleElement.Blank ∧
        m2.elems.getD idx FilledHoleElement.Blank = FilledHoleElement.Texture)) ∧
    (∀ idx : Nat, m1.elems.getD idx FilledHoleElement.Blank = FilledHoleElement.Structure →
      m2.elems.getD idx FilledHoleElement.Blank = FilledHoleElement.Structure) := by
  have hs : structWrites (FilledHoleMatrix.new w h) m1 :=
    rasterize_structWrites sampler origin curves _ m1 h1
  have ht : textureWrites m1 m2 := fill_holes_textureWrites fuel m1 image hole_rect
    offset endpoints threshold m2 h2
  refine ⟨?_, ht, ?_⟩
  · intro idx
    rcases hs idx with h' | h'
    · rw [h', new_getD]; exact Or.inl rfl
    · exact Or.inr h'
  · intro idx hstruct
    rcases ht idx with h' | ⟨hB, _⟩
    · rw [h', hstruct]
    · rw [hstruct] at hB
      exact FilledHoleElement.noConfusion hB

/-- Claim C6 witness: empty curves on a `2 × 2` hole with a single endpoint
and a high threshold run the whole pipeline; both hypotheses hold by
computation. -/
theorem c6_pipeline_blank_structure_texture_witness :
    (rasterize_intrapolated_curves (fun l => l) (FilledHoleMatrix.new 2 2) [] (0, 0) =
      Except.ok (FilledHoleMatrix.new 2 2)) ∧
    (fill_holes 1 (FilledHoleMatrix.new 2 2) (fun _ => true) ⟨0, 0, 2, 2⟩ (0, 0)
        [(0, 0)] 100 = some (Except.ok (FilledHoleMatrix.new 2 2))) ∧
    (∀ idx : Nat,
      (FilledHoleMatrix.new 2 2).elems.getD idx FilledHoleElement.Blank =
          FilledHoleElement.Blank ∨
        (FilledHoleMatrix.new 2 2).elems.getD idx FilledHoleElement.Blank =
          FilledHoleElement.Structure) :=
  ⟨rfl, rfl,
    (c6_pipeline_blank_structure_texture (fun l => l) (0, 0) [] 2 2
      (FilledHoleMatrix.new 2 2) rfl 1 (fun _ => true) ⟨0, 0, 2, 2⟩ (0, 0)
      [(0, 0)] 100 (FilledHoleMatrix.new 2 2) rfl).1⟩

end ShapeSense
